import Mathlib

set_option maxRecDepth 100000

/-!
Verification development for a Gomoku (Five-in-a-Row) engine.

The definitions below are a shallow embedding of the engine's C++ sources:
the board model (board.cpp / board.hpp / types.hpp), the tactical heuristic
(heuristic.cpp / heuristic.hpp), the Monte-Carlo tree search driver
(mcts.cpp / mcts.hpp) and the front-end move parser (uci.cpp).

Machine integers of the source (int, int8_t) are modelled as Int; all values
reached by the modelled code are far from the overflow boundaries.
std::bitset<225> is modelled as a function Int → Bool, and the 225-cell
int8_t array as a function Int → Int.  Loops that walk along a board line
are modelled by fuel recursion; the fuel (225) strictly exceeds the longest
possible walk (at most 15 cells before the in-bounds guard fails).
-/

namespace Gomoku

/-- Board side length (types.hpp BOARD_SIZE = 15). -/
def BOARD_SIZE : Int := 15

/-- Number of cells (types.hpp BOARD_CELLS = 225). -/
def BOARD_CELLS : Nat := 225

/-- Empty-cell marker (types.hpp EMPTY = 0). -/
def EMPTY : Int := 0

/-- First player (types.hpp BLACK = 1). -/
def BLACK : Int := 1

/-- Second player (types.hpp WHITE = -1). -/
def WHITE : Int := -1

/-- Chebyshev radius for legal moves (types.hpp LEGAL_RADIUS = 2). -/
def LEGAL_RADIUS : Int := 2

/-- The four principal directions (types.hpp DIRECTIONS).  heuristic.cpp
declares local arrays dx = {1,0,1,1}, dy = {0,1,1,-1} with the same
contents, which are also modelled by this list. -/
def DIRECTIONS : List (Int × Int) := [(1, 0), (0, 1), (1, 1), (1, -1)]

/-- Row-major cell index (types.hpp to_index). -/
def to_index (x y : Int) : Int := y * 15 + x

/-- Column of an index (types.hpp to_x). -/
def to_x (idx : Int) : Int := idx % 15

/-- Row of an index (types.hpp to_y). -/
def to_y (idx : Int) : Int := idx / 15

/-- Bounds check (types.hpp in_bounds). -/
def in_bounds (x y : Int) : Bool :=
  decide (0 ≤ x) && decide (x < 15) && decide (0 ≤ y) && decide (y < 15)

/-- Move structure (types.hpp Move).  The source stores coordinates as
int8_t; every Move the modelled code constructs has coordinates in
[-1, 14], far from the int8_t range boundary, so Int is faithful. -/
structure Move where
  x : Int
  y : Int
deriving DecidableEq, Repr

instance : Inhabited Move := ⟨⟨-1, -1⟩⟩

/-- The default-constructed sentinel Move() = (-1, -1). -/
def Move.invalid : Move := ⟨-1, -1⟩

/-- types.hpp Move::is_valid: x >= 0 && y >= 0. -/
def Move.is_valid (m : Move) : Bool := decide (0 ≤ m.x) && decide (0 ≤ m.y)

/-- types.hpp Move::to_index. -/
def Move.to_index (m : Move) : Int := Gomoku.to_index m.x m.y

/-- std::bitset<225>, as a predicate on cell indices (types.hpp declares
BitBoard as an alias of std::bitset<BOARD_CELLS>). -/
abbrev BitBoard : Type := Int → Bool

/-- bitset::set(i). -/
def BitBoard.set (b : BitBoard) (i : Int) : BitBoard :=
  fun j => if j = i then true else b j

/-- bitset::reset(i). -/
def BitBoard.reset (b : BitBoard) (i : Int) : BitBoard :=
  fun j => if j = i then false else b j

/-- bitset::reset() — all bits cleared. -/
def BitBoard.clear : BitBoard := fun _ => false

/-- bitset::none() — true iff none of the 225 bits is set. -/
def BitBoard.noneSet (b : BitBoard) : Bool :=
  (List.range BOARD_CELLS).all (fun i : Nat => !(b (i : Int)))

/-- bitset::count() — population count of the 225 bits. -/
def BitBoard.count (b : BitBoard) : Nat :=
  (List.range BOARD_CELLS).countP (fun i : Nat => b (i : Int))

/-- Game result tag (types.hpp GameResult). -/
inductive GameResult where
  | ONGOING
  | BLACK_WIN
  | WHITE_WIN
  | DRAW
deriving DecidableEq, Repr

/-- Board state (board.hpp).  cells_ is the flat 225-cell array; the four
bitsets and the scalar state fields are carried verbatim. -/
@[ext]
structure Board where
  cells : Int → Int
  occupied_mask : BitBoard
  black_mask : BitBoard
  white_mask : BitBoard
  legal_mask : BitBoard
  current_player : Int
  is_terminal : Bool
  result : GameResult
  history : List Move

/-- board.cpp Board::reset() — the empty-board state (also the state
established by the Board constructor). -/
def Board.reset : Board where
  cells := fun _ => EMPTY
  occupied_mask := BitBoard.clear
  black_mask := BitBoard.clear
  white_mask := BitBoard.clear
  legal_mask := BitBoard.clear
  current_player := BLACK
  is_terminal := false
  result := GameResult.ONGOING
  history := []

/-- board.cpp Board::get(x, y). -/
def Board.get (b : Board) (x y : Int) : Int := b.cells (to_index x y)

/-- board.cpp Board::is_empty(x, y). -/
def Board.is_empty (b : Board) (x y : Int) : Bool := decide (b.get x y = EMPTY)

/-- The directional walk shared by board.cpp Board::count_direction and
heuristic.cpp Heuristic::count_consecutive (their loop bodies are
identical): starting at (nx, ny), count consecutive cells equal to
player, stepping by (dx, dy), stopping at the first mismatch or the
board edge.  Fuel recursion; 225 units of fuel strictly exceed any
in-bounds walk, whose in-bounds guard fails within 15 steps. -/
def countRun (cells : Int → Int) (nx ny dx dy player : Int) : Nat → Nat
  | 0 => 0
  | fuel + 1 =>
    if in_bounds nx ny = true ∧ cells (to_index nx ny) = player then
      1 + countRun cells (nx + dx) (ny + dy) dx dy player fuel
    else 0

/-- board.cpp Board::count_direction(x, y, dx, dy, player): consecutive
stones of player strictly beyond (x, y) in direction (dx, dy). -/
def Board.count_direction (b : Board) (x y dx dy player : Int) : Nat :=
  countRun b.cells (x + dx) (y + dy) dx dy player BOARD_CELLS

/-- board.cpp Board::check_win(move): some direction pair accumulates five
including the placed stone. -/
def Board.check_win (b : Board) (m : Move) : Bool :=
  let player := b.cells m.to_index
  DIRECTIONS.any (fun d =>
    decide (5 ≤ 1 + b.count_direction m.x m.y d.1 d.2 player
                  + b.count_direction m.x m.y (-d.1) (-d.2) player))

/-- The loop bounds -LEGAL_RADIUS .. LEGAL_RADIUS used by
Board::update_legal_mask and Board::unmake_move. -/
def LEGAL_DELTAS : List Int := [-2, -1, 0, 1, 2]

/-- The Chebyshev-radius-2 dilation loop shared by board.cpp
Board::update_legal_mask and the rebuild loop of Board::unmake_move:
set the legal bit of every in-bounds, non-occupied cell within
Chebyshev distance 2 of (mx, my).  dy is the outer loop, dx the inner,
as in the source. -/
def addRadiusBits (legal occ : BitBoard) (mx my : Int) : BitBoard :=
  LEGAL_DELTAS.foldl (fun l dy =>
    LEGAL_DELTAS.foldl (fun l dx =>
      if in_bounds (mx + dx) (my + dy) = true ∧
          occ (to_index (mx + dx) (my + dy)) = false then
        BitBoard.set l (to_index (mx + dx) (my + dy))
      else l) l) legal

/-- board.cpp Board::update_legal_mask(move), called by make_move after the
occupancy masks have been updated.  The board argument carries the
already-updated occupied mask, while history_ has not yet been extended
— exactly the state at the call site. -/
def Board.update_legal_mask (b : Board) (m : Move) : BitBoard :=
  let l0 := if b.history.isEmpty && BitBoard.noneSet b.legal_mask then
              BitBoard.set b.legal_mask m.to_index
            else b.legal_mask
  addRadiusBits l0 b.occupied_mask m.x m.y

/-- Lines 245-255 of board.cpp Board::make_move: write the stone into the
cell array, set the occupied bit, and set the bit of the mover's color
mask. -/
def Board.apply_stone (b : Board) (m : Move) : Board :=
  let idx := m.to_index
  { b with
    cells := fun j => if j = idx then b.current_player else b.cells j,
    occupied_mask := BitBoard.set b.occupied_mask idx,
    black_mask := if b.current_player = BLACK then BitBoard.set b.black_mask idx
                  else b.black_mask,
    white_mask := if b.current_player = BLACK then b.white_mask
                  else BitBoard.set b.white_mask idx }

/-- The state of the board inside Board::make_move just before the win and
draw tests: stone and masks written, legal mask extended around the
move and cleared at the move's own index, history extended. -/
def Board.make_pre (b : Board) (m : Move) : Board :=
  let b1 := b.apply_stone m
  { b1 with legal_mask := BitBoard.reset (b1.update_legal_mask m) m.to_index,
            history := b1.history ++ [m] }

/-- board.cpp Board::make_move(move): place the stone, update the masks,
extend and trim the legal mask, append history, test for win (setting
the mover's result) or draw (empty legal mask), flip the side to move.
When neither a win nor a draw is detected the terminal flag and the
result are left as they were, as in the source. -/
def Board.make_move (b : Board) (m : Move) : Board :=
  if (b.make_pre m).check_win m then
    { (b.make_pre m) with
        is_terminal := true,
        result := if b.current_player = BLACK then GameResult.BLACK_WIN
                  else GameResult.WHITE_WIN,
        current_player := -b.current_player }
  else if BitBoard.noneSet (b.make_pre m).legal_mask then
    { (b.make_pre m) with
        is_terminal := true,
        result := GameResult.DRAW,
        current_player := -b.current_player }
  else
    { (b.make_pre m) with current_player := -b.current_player }

/-- The legal-mask rebuild of board.cpp Board::unmake_move: clear the mask;
if the remaining history is empty set only the center, otherwise redo
the radius-2 dilation around every remaining historic move, skipping
occupied cells. -/
def rebuildLegal (history : List Move) (occ : BitBoard) : BitBoard :=
  if history.isEmpty then BitBoard.set BitBoard.clear (to_index 7 7)
  else history.foldl (fun l m => addRadiusBits l occ m.x m.y) BitBoard.clear

/-- The non-trivial branch of board.cpp Board::unmake_move: flip the player
back, clear the cell and all three occupancy bits at the move's index,
reset terminal state, pop history, and rebuild the legal mask from the
remaining history. -/
def Board.unmake_core (b : Board) (m : Move) : Board :=
  let idx := m.to_index
  let occ1 := BitBoard.reset b.occupied_mask idx
  let hist1 := b.history.dropLast
  { cells := fun j => if j = idx then EMPTY else b.cells j,
    occupied_mask := occ1,
    black_mask := BitBoard.reset b.black_mask idx,
    white_mask := BitBoard.reset b.white_mask idx,
    legal_mask := rebuildLegal hist1 occ1,
    current_player := -b.current_player, is_terminal := false,
    result := GameResult.ONGOING, history := hist1 }

/-- board.cpp Board::unmake_move(move): a no-op on an empty history (the
early return on line 281), the core update otherwise. -/
def Board.unmake_move (b : Board) (m : Move) : Board :=
  if b.history.isEmpty then b else b.unmake_core m

/-- board.cpp Board::is_legal(x, y). -/
def Board.is_legal (b : Board) (x y : Int) : Bool :=
  if in_bounds x y = false then false
  else if b.history.isEmpty then b.is_empty x y
  else b.legal_mask (to_index x y) && !(b.occupied_mask (to_index x y))

/-- board.cpp Board::get_legal_moves(): the center on an empty history,
otherwise the set bits of the legal mask in index order. -/
def Board.get_legal_moves (b : Board) : List Move :=
  if b.history.isEmpty then [⟨7, 7⟩]
  else ((List.range BOARD_CELLS).filter (fun i : Nat => b.legal_mask (i : Int))).map
         (fun i : Nat => ⟨to_x (i : Int), to_y (i : Int)⟩)

/-- board.cpp Board::get_winner(). -/
def Board.get_winner (b : Board) : Int :=
  match b.result with
  | GameResult.BLACK_WIN => BLACK
  | GameResult.WHITE_WIN => WHITE
  | _ => EMPTY

/-- board.hpp Board::move_count(): the history length. -/
def Board.move_count (b : Board) : Nat := b.history.length

/-! Heuristic (heuristic.hpp / heuristic.cpp).  Only the members a claim
depends on are embedded: count_consecutive, evaluate_line (used by the
second pass of find_blocking_move), find_winning_move and
find_blocking_move.  The pattern_table_ member is initialised to zeros
and never read by any of these, and is not modelled. -/

/-- heuristic.hpp pattern score SCORE_WIN. -/
def SCORE_WIN : Int := 1000000

/-- heuristic.hpp pattern score SCORE_FOUR_OPEN. -/
def SCORE_FOUR_OPEN : Int := 100000

/-- heuristic.hpp pattern score SCORE_FOUR_CLOSED. -/
def SCORE_FOUR_CLOSED : Int := 10000

/-- heuristic.hpp pattern score SCORE_THREE_OPEN. -/
def SCORE_THREE_OPEN : Int := 5000

/-- heuristic.hpp pattern score SCORE_THREE_CLOSED. -/
def SCORE_THREE_CLOSED : Int := 500

/-- heuristic.hpp pattern score SCORE_TWO_OPEN. -/
def SCORE_TWO_OPEN : Int := 200

/-- heuristic.hpp pattern score SCORE_TWO_CLOSED. -/
def SCORE_TWO_CLOSED : Int := 20

/-- heuristic.cpp Heuristic::count_consecutive(board, x, y, dx, dy, player):
the same directional walk as Board::count_direction, on the unmodified
board. -/
def Heuristic.count_consecutive (b : Board) (x y dx dy player : Int) : Nat :=
  countRun b.cells (x + dx) (y + dy) dx dy player BOARD_CELLS

/-- heuristic.cpp Heuristic::evaluate_line(board, x, y, dx, dy, player):
pattern score of a hypothetical stone of player at (x, y) along the
direction pair (dx, dy).  The gap walks reuse count_consecutive, whose
loop is identical to the gap loops of the source (count stones of
player starting one step past the open end).  The local
total_with_gaps of the source is dead code and is not modelled. -/
def Heuristic.evaluate_line (b : Board) (x y dx dy player : Int) : Int :=
  let count_pos : Int := Heuristic.count_consecutive b x y dx dy player
  let count_neg : Int := Heuristic.count_consecutive b x y (-dx) (-dy) player
  let total := count_pos + count_neg
  if 4 ≤ total then SCORE_WIN
  else
    let end_pos_x := x + dx * (count_pos + 1)
    let end_pos_y := y + dy * (count_pos + 1)
    let open_pos := in_bounds end_pos_x end_pos_y &&
                    decide (b.get end_pos_x end_pos_y = EMPTY)
    let end_neg_x := x - dx * (count_neg + 1)
    let end_neg_y := y - dy * (count_neg + 1)
    let open_neg := in_bounds end_neg_x end_neg_y &&
                    decide (b.get end_neg_x end_neg_y = EMPTY)
    let openness : Int := (if open_pos then 1 else 0) + (if open_neg then 1 else 0)
    let gap_count : Int :=
      if open_pos = true ∧ count_pos < 4 then
        Heuristic.count_consecutive b end_pos_x end_pos_y dx dy player
      else 0
    let gap_count_neg : Int :=
      if open_neg = true ∧ count_neg < 4 then
        Heuristic.count_consecutive b end_neg_x end_neg_y (-dx) (-dy) player
      else 0
    if total = 3 then
      if openness = 2 then SCORE_FOUR_OPEN
      else if openness = 1 then SCORE_FOUR_CLOSED
      else 0
    else if total = 2 then
      if (1 ≤ gap_count ∨ 1 ≤ gap_count_neg) ∧ 1 ≤ openness then SCORE_THREE_OPEN
      else if openness = 2 then SCORE_THREE_OPEN
      else if openness = 1 then SCORE_THREE_CLOSED
      else 0
    else if total = 1 then
      if 2 ≤ gap_count ∨ 2 ≤ gap_count_neg then SCORE_THREE_CLOSED
      else if (1 ≤ gap_count ∨ 1 ≤ gap_count_neg) ∧ 1 ≤ openness then SCORE_TWO_OPEN
      else if openness = 2 then SCORE_TWO_OPEN
      else if openness = 1 then SCORE_TWO_CLOSED
      else 0
    else 0

/-- The per-move test of the scan loops in Heuristic::find_winning_move and
the first pass of Heuristic::find_blocking_move: some direction pair
gives a combined consecutive count of at least four for player. -/
def Heuristic.fourTest (b : Board) (player : Int) (m : Move) : Bool :=
  DIRECTIONS.any (fun d =>
    decide (4 ≤ Heuristic.count_consecutive b m.x m.y d.1 d.2 player
              + Heuristic.count_consecutive b m.x m.y (-d.1) (-d.2) player))

/-- heuristic.cpp Heuristic::find_winning_move(board): first legal move
whose combined consecutive count reaches 4 for the current player,
else the invalid sentinel. -/
def Heuristic.find_winning_move (b : Board) : Move :=
  let player := b.current_player
  match b.get_legal_moves.find? (Heuristic.fourTest b player) with
  | some m => m
  | none => Move.invalid

/-- heuristic.cpp Heuristic::find_blocking_move(board): first pass returns
the first legal move where the opponent's combined consecutive count
reaches 4; otherwise the second pass returns the legal move maximising
evaluate_line for the opponent among scores of at least
SCORE_FOUR_OPEN (first maximiser wins ties, as the source updates only
on a strictly greater threat), else the invalid sentinel. -/
def Heuristic.find_blocking_move (b : Board) : Move :=
  let player := b.current_player
  let opponent := if player = BLACK then WHITE else BLACK
  let moves := b.get_legal_moves
  match moves.find? (Heuristic.fourTest b opponent) with
  | some m => m
  | none =>
    let best := moves.foldl (fun acc m =>
      DIRECTIONS.foldl (fun acc d =>
        let threat := Heuristic.evaluate_line b m.x m.y d.1 d.2 opponent
        if SCORE_FOUR_OPEN ≤ threat ∧ acc.1 < threat then (threat, m) else acc)
        acc) ((0 : Int), Move.invalid)
    best.2

/-! The Monte-Carlo tree search (mcts.hpp / mcts.cpp).  The claims concern
the terminal branch of MCTS::rollout and the control flow of
MCTS::search around its iteration loop.  The loop body
(select / expand / rollout / backpropagate) mutates the tree through the
instance's Mersenne-twister generator and double-valued statistics; it
is abstracted as an arbitrary iteration-indexed tree transformer, so
everything proved about the control flow holds for every possible body.
Node total_value (a double accumulating rollout values) is modelled as
ℚ; no modelled code path reads it. -/

/-- mcts.hpp MCTSNode.  The raw parent back-pointer of the source is
represented implicitly by the tree shape (each node owns its children);
no modelled code path follows it. -/
inductive MCTSNode where
  | mk (move : Move) (children : List MCTSNode) (untried_moves : List Move)
       (visit_count : Nat) (total_value : ℚ) (player_to_move : Int)

/-- The move that led to this node. -/
def MCTSNode.move : MCTSNode → Move
  | .mk m _ _ _ _ _ => m

/-- Owned children. -/
def MCTSNode.children : MCTSNode → List MCTSNode
  | .mk _ c _ _ _ _ => c

/-- Moves not yet expanded. -/
def MCTSNode.untried_moves : MCTSNode → List Move
  | .mk _ _ u _ _ _ => u

/-- Visit count N. -/
def MCTSNode.visit_count : MCTSNode → Nat
  | .mk _ _ _ n _ _ => n

/-- Configuration fields of mcts.hpp MCTSConfig read by the embedded
control flow.  exploration_constant (a double), the rng seed and the
rollout-policy flags are consumed only inside the abstracted iteration
body and are not modelled. -/
structure MCTSConfig where
  max_iterations : Nat
  max_time_ms : Int

/-- mcts.cpp MCTS::rollout(board), terminal branch: 0 on a drawn (or
winnerless) terminal board, -1 when the winner equals the board's
current player, +1 otherwise.  The non-terminal branch averages the
rng-driven playout policies; its value is abstracted as the playout
argument. -/
def MCTS.rollout (b : Board) (playout : Int) : Int :=
  if b.is_terminal then
    let winner := b.get_winner
    if winner = EMPTY then 0
    else if winner = b.current_player then -1
    else 1
  else playout

/-- mcts.cpp MCTS::select_best_move(root): with no children, fall back to
the first untried move or the invalid sentinel; otherwise return the
move of the first child attaining the maximal visit count (the source
scans with a strict comparison against best_visits starting at -1). -/
def MCTS.select_best_move (root : MCTSNode) : Move :=
  if root.children.isEmpty then
    match root.untried_moves with
    | [] => Move.invalid
    | m :: _ => m
  else
    let best := root.children.foldl (fun acc c =>
      if acc.1 < (c.visit_count : Int) then ((c.visit_count : Int), some c) else acc)
      ((-1 : Int), (none : Option MCTSNode))
    match best.2 with
    | some n => n.move
    | none => Move.invalid

/-- The iteration loop of mcts.cpp MCTS::search: while the iteration
counter is below max_iterations (fuel counts the remaining allowance),
stop as soon as the elapsed wall-clock milliseconds reach the time
limit, else run one iteration body and continue.  elapsed models the
monotone-clock duration read at the top of each pass (always a
non-negative number of milliseconds); body models one
select / expand / rollout / backpropagate pass.  Returns the final root
and the iteration counter. -/
def MCTS.search_loop (body : Nat → MCTSNode → MCTSNode) (elapsed : Nat → Nat)
    (time_limit_ms : Int) : Nat → Nat → MCTSNode → MCTSNode × Nat
  | 0, iters, root => (root, iters)
  | fuel + 1, iters, root =>
    if time_limit_ms ≤ (elapsed iters : Int) then (root, iters)
    else MCTS.search_loop body elapsed time_limit_ms fuel (iters + 1) (body iters root)

/-- mcts.cpp MCTS::search(board, time_limit_ms): an immediate winning move
wins, else an immediate blocking move, else build the root with the
board's legal moves as untried children; a single untried move is
returned directly; otherwise run the iteration loop and pick the most
visited root child.  iterations0 carries the value of the iterations_
member before the call (the early returns leave it untouched, the loop
path rewrites it); the returned pair is (move, iterations_ after the
call). -/
def MCTS.search (cfg : MCTSConfig) (b : Board) (time_limit_ms : Int)
    (elapsed : Nat → Nat) (body : Nat → MCTSNode → MCTSNode)
    (iterations0 : Nat) : Move × Nat :=
  let winning := Heuristic.find_winning_move b
  if winning.is_valid then (winning, iterations0)
  else
    let blocking := Heuristic.find_blocking_move b
    if blocking.is_valid then (blocking, iterations0)
    else
      let root := MCTSNode.mk Move.invalid [] b.get_legal_moves 0 0 b.current_player
      if root.untried_moves.length = 1 then (root.untried_moves.headI, iterations0)
      else
        let res := MCTS.search_loop body elapsed time_limit_ms cfg.max_iterations 0 root
        (MCTS.select_best_move res.1, res.2)

/-! The front-end move parser (uci.cpp UCIEngine::parse_move).  The
std::string argument is modelled as its list of characters.  Character
classification and case mapping follow the ASCII ranges the C locale
gives for the characters the engine can receive. -/

/-- std::isalpha on ASCII: A-Z or a-z. -/
def isalphaChar (c : Char) : Bool :=
  (decide (65 ≤ c.toNat) && decide (c.toNat ≤ 90)) ||
  (decide (97 ≤ c.toNat) && decide (c.toNat ≤ 122))

/-- Decimal digit test, ASCII 0-9 (used by the stoi model). -/
def isdigitChar (c : Char) : Bool := decide (48 ≤ c.toNat) && decide (c.toNat ≤ 57)

/-- std::isspace on ASCII: space or horizontal tab .. carriage return. -/
def isspaceChar (c : Char) : Bool :=
  decide (c.toNat = 32) || (decide (9 ≤ c.toNat) && decide (c.toNat ≤ 13))

/-- std::tolower on ASCII. -/
def tolowerChar (c : Char) : Char :=
  if 65 ≤ c.toNat ∧ c.toNat ≤ 90 then Char.ofNat (c.toNat + 32) else c

/-- Value of a digit string (most significant first). -/
def digitsToInt (ds : List Char) : Int :=
  ds.foldl (fun a c => a * 10 + ((c.toNat : Int) - 48)) 0

/-- std::stoi via its strtol semantics: skip leading whitespace, consume an
optional sign, then a maximal non-empty run of decimal digits; no
digits means std::invalid_argument, modelled as none.  The
out-of-range exception of the source is not modelled: an overflowing
numeral here yields a value so large that the caller's bounds check
rejects it, giving the same observable parse_move result. -/
def stoi (s : List Char) : Option Int :=
  let s1 := s.dropWhile isspaceChar
  let neg := s1.head? == some '-'
  let s2 := if s1.head? == some '-' || s1.head? == some '+' then s1.tail else s1
  let ds := s2.takeWhile isdigitChar
  if ds.isEmpty then none
  else some ((if neg then -1 else 1) * digitsToInt ds)

/-- The tail of uci.cpp UCIEngine::parse_move: the final bounds check over
the parsed coordinates (none models the early returns from the catch
blocks). -/
def finishParse (xy : Option (Int × Int)) : Move :=
  match xy with
  | none => Move.invalid
  | some (x, y) => if in_bounds x y then { x := x, y := y } else Move.invalid

/-- uci.cpp UCIEngine::parse_move(move_str): strings shorter than 2 are
invalid; a leading letter selects the letter-number notation (column
letter, then 1-based row via stoi); otherwise a comma selects the
0-based "x,y" notation, splitting at the first comma and applying stoi
to both parts; otherwise the coordinates stay (-1, -1).  In-bounds
coordinates yield the move, everything else the invalid sentinel. -/
def UCIEngine.parse_move (s : List Char) : Move :=
  if s.length < 2 then Move.invalid
  else
    finishParse
      (if isalphaChar s.headI then
        let x : Int := ((tolowerChar s.headI).toNat : Int) - 97
        match stoi (s.drop 1) with
        | some v => some (x, v - 1)
        | none => none
      else if s.contains ',' then
        let comma := s.findIdx (fun c => c == ',')
        match stoi (s.take comma), stoi (s.drop (comma + 1)) with
        | some a, some b => some (a, b)
        | _, _ => none
      else some (-1, -1))

/-! State predicates and reachability.  These package the data-model
invariants of the specification (occupancy masks consistent with the
cell array, legal mask disjoint from the occupied mask, history in
bijection with the occupied cells, side to move determined by the
parity of the move count) as decidable predicates over the embedded
Board. -/

/-- Consistency of the three occupancy masks with the cell array. -/
def Board.MaskInv (b : Board) : Prop :=
  ∀ i ∈ List.range BOARD_CELLS,
    (b.cells (i : Int) = 0 ∨ b.cells (i : Int) = 1 ∨ b.cells (i : Int) = -1) ∧
    (b.occupied_mask (i : Int) = true ↔ ¬ b.cells (i : Int) = 0) ∧
    (b.black_mask (i : Int) = true ↔ b.cells (i : Int) = 1) ∧
    (b.white_mask (i : Int) = true ↔ b.cells (i : Int) = -1)

/-- The history records each occupied cell exactly once, in bounds. -/
def Board.HistInv (b : Board) : Prop :=
  (∀ m ∈ b.history, in_bounds m.x m.y = true) ∧
  (b.history.map Move.to_index).Nodup ∧
  (∀ i ∈ List.range BOARD_CELLS,
    (b.occupied_mask (i : Int) = true ↔ (i : Int) ∈ b.history.map Move.to_index))

/-- The side to move is black exactly on even move counts. -/
def Board.ParityInv (b : Board) : Prop :=
  b.current_player = (if Even b.history.length then BLACK else WHITE)

/-- The legal mask never marks an occupied cell. -/
def Board.DisjInv (b : Board) : Prop :=
  ∀ i ∈ List.range BOARD_CELLS,
    ¬(b.legal_mask (i : Int) = true ∧ b.occupied_mask (i : Int) = true)

/-- The full board invariant. -/
def Board.Inv (b : Board) : Prop :=
  b.MaskInv ∧ b.HistInv ∧ b.ParityInv ∧ b.DisjInv

/-- Boards reachable through the public operations under their documented
preconditions: reset; make_move on an in-bounds empty target;
unmake_move passed the last history entry. -/
inductive Board.Reachable : Board → Prop where
  | base : Board.Reachable Board.reset
  | make {b : Board} (m : Move) : Board.Reachable b → in_bounds m.x m.y = true →
      b.cells m.to_index = EMPTY → Board.Reachable (b.make_move m)
  | unmake {b : Board} (m : Move) : Board.Reachable b →
      b.history.getLast? = some m → Board.Reachable (b.unmake_move m)

/-- A move sequence each element of which is legal (Board::is_legal) on the
board it is applied to. -/
def Board.legal_seq : Board → List Move → Bool
  | _, [] => true
  | b, m :: ms => b.is_legal m.x m.y && Board.legal_seq (b.make_move m) ms

/-- A move sequence whose every element targets an in-bounds empty cell of
the board it is applied to — the documented make_move precondition
(weaker than legality: the radius rule is not required). -/
def Board.open_seq : Board → List Move → Bool
  | _, [] => true
  | b, m :: ms =>
    (in_bounds m.x m.y && decide (b.cells m.to_index = EMPTY))
      && Board.open_seq (b.make_move m) ms

/-- Apply a sequence of moves in order. -/
def Board.applyAll (b : Board) (ms : List Move) : Board :=
  ms.foldl Board.make_move b

/-- Undo a sequence of moves in the given order. -/
def Board.unmakeAll (b : Board) (ms : List Move) : Board :=
  ms.foldl Board.unmake_move b

/-- The state Board::unmake_move actually reaches when the last stone is
removed: the fresh board except that the legal mask holds exactly the
center cell (7, 7) — reset leaves that mask empty. -/
def Board.fresh_center_legal : Board :=
  { Board.reset with legal_mask := BitBoard.set BitBoard.clear (to_index 7 7) }

/-- The state applying ms to a fresh board and then undoing the last move
reaches, extended to any suffix of undos: stones and history of the
prefix, player determined by the prefix, terminal state cleared, legal
mask rebuilt from the prefix as Board::unmake_move rebuilds it. -/
def Board.rewound (ms : List Move) : Board :=
  let A := Board.applyAll Board.reset ms
  { cells := A.cells, occupied_mask := A.occupied_mask,
    black_mask := A.black_mask, white_mask := A.white_mask,
    legal_mask := rebuildLegal ms A.occupied_mask,
    current_player := A.current_player, is_terminal := false,
    result := GameResult.ONGOING, history := ms }

/-- Applying m as the side to move yields a terminal board whose winner is
that side (the specification's "move that makes the board terminal with
the current player winning"). -/
def Board.WinsNow (b : Board) (m : Move) : Prop :=
  (b.make_move m).is_terminal = true ∧
  (b.make_move m).get_winner = b.current_player

/-- The same board with the opponent to move, used to express "a move whose
application would make the opponent win" (the opponent hypothetically
plays next). -/
def Board.flip_player (b : Board) : Board :=
  { b with current_player := -b.current_player }

/-- ds is the plain decimal numeral of n: non-empty, all digits, value n. -/
def NatNumeral (ds : List Char) (n : Nat) : Prop :=
  ds ≠ [] ∧ (∀ c ∈ ds, isdigitChar c = true) ∧ digitsToInt ds = (n : Int)

instance (ds : List Char) (n : Nat) : Decidable (NatNumeral ds n) := by
  unfold NatNumeral
  exact inferInstance

instance (b : Board) : Decidable b.MaskInv := by
  unfold Board.MaskInv
  exact inferInstance

instance (b : Board) : Decidable b.HistInv := by
  unfold Board.HistInv
  exact inferInstance

instance (b : Board) : Decidable b.ParityInv := by
  unfold Board.ParityInv
  exact inferInstance

instance (b : Board) : Decidable b.DisjInv := by
  unfold Board.DisjInv
  exact inferInstance

instance (b : Board) : Decidable b.Inv := by
  unfold Board.Inv
  exact inferInstance

instance (b : Board) (m : Move) : Decidable (b.WinsNow m) := by
  unfold Board.WinsNow
  exact inferInstance

/-! Concrete boards used as witnesses and counterexamples. -/

/-- Black four in a row on row 7 (columns 5-8), black to move: the
winning_move_detection scenario of tests/test_engine.cpp. -/
def winDemoChain : List Move :=
  [⟨5, 7⟩, ⟨5, 8⟩, ⟨6, 7⟩, ⟨6, 8⟩, ⟨7, 7⟩, ⟨7, 8⟩, ⟨8, 7⟩, ⟨8, 8⟩]

/-- The board of winDemoChain. -/
def winDemoBoard : Board := Board.applyAll Board.reset winDemoChain

/-- White four in a row on row 7 (columns 3-6) blocked on the right by the
black stone at (7, 7), black to move: the mcts_defensive_necessity
scenario of tests/test_engine.cpp. -/
def blockDemoChain : List Move :=
  [⟨7, 7⟩, ⟨3, 7⟩, ⟨7, 8⟩, ⟨4, 7⟩, ⟨7, 9⟩, ⟨5, 7⟩, ⟨10, 10⟩, ⟨6, 7⟩]

/-- The board of blockDemoChain. -/
def blockDemoBoard : Board := Board.applyAll Board.reset blockDemoChain

/-- Black five on row 7 (columns 3-7): the incremental_win scenario of
tests/test_engine.cpp, a terminal board won by black. -/
def termDemoChain : List Move :=
  [⟨3, 7⟩, ⟨3, 8⟩, ⟨4, 7⟩, ⟨4, 8⟩, ⟨5, 7⟩, ⟨5, 8⟩, ⟨6, 7⟩, ⟨6, 8⟩, ⟨7, 7⟩]

/-- The board of termDemoChain. -/
def termDemoBoard : Board := Board.applyAll Board.reset termDemoChain

/-- A single-stone board (black at the center). -/
def oneMoveBoard : Board := Board.make_move Board.reset ⟨7, 7⟩

/-- Play continued past a finished game, reaching a terminal board whose
winner is the side to move: black completes five at (0,0)-(4,0) with
the right end blocked by white at (5,0); white then plays a legal quiet
move at (7,3), handing the turn back to the winner.  Every move is
legal on the board it is played on. -/
def playOnChain : List Move :=
  [⟨3, 0⟩, ⟨5, 0⟩, ⟨2, 0⟩, ⟨5, 1⟩, ⟨1, 0⟩, ⟨5, 2⟩, ⟨0, 0⟩, ⟨5, 3⟩, ⟨4, 0⟩, ⟨7, 3⟩]

/-- The board of playOnChain. -/
def playOnBoard : Board := Board.applyAll Board.reset playOnChain

/-- A variant of playOnChain whose white stones stay scattered (no white
four): black completes the double-blocked five (0,0)-(4,0), white holds
(5,0), (4,2), (2,2) and (0,2).  Every move is legal on the board it is
played on, and the game ends won by black with white to move. -/
def blockPlayOnChain : List Move :=
  [⟨3, 0⟩, ⟨5, 0⟩, ⟨2, 0⟩, ⟨4, 2⟩, ⟨1, 0⟩, ⟨2, 2⟩, ⟨0, 0⟩, ⟨0, 2⟩, ⟨4, 0⟩]

/-- The board of blockPlayOnChain. -/
def blockPlayOnBoard : Board := Board.applyAll Board.reset blockPlayOnChain

/-! Basic facts about coordinates and indices. -/

theorem in_bounds_iff {x y : Int} :
    in_bounds x y = true ↔ 0 ≤ x ∧ x < 15 ∧ 0 ≤ y ∧ y < 15 := by
  simp [in_bounds, and_assoc]

theorem to_index_range {x y : Int} (h : in_bounds x y = true) :
    0 ≤ to_index x y ∧ to_index x y < 225 := by
  rw [in_bounds_iff] at h
  unfold to_index
  omega

theorem to_x_to_index {x y : Int} (h : in_bounds x y = true) :
    to_x (to_index x y) = x := by
  rw [in_bounds_iff] at h
  unfold to_x to_index
  omega

theorem to_y_to_index {x y : Int} (h : in_bounds x y = true) :
    to_y (to_index x y) = y := by
  rw [in_bounds_iff] at h
  unfold to_y to_index
  omega

theorem to_xy_in_bounds {i : Int} (h0 : 0 ≤ i) (h1 : i < 225) :
    in_bounds (to_x i) (to_y i) = true := by
  rw [in_bounds_iff]
  unfold to_x to_y
  omega

theorem to_index_to_xy (i : Int) : to_index (to_x i) (to_y i) = i := by
  unfold to_index to_x to_y
  omega

theorem to_index_inj {x1 y1 x2 y2 : Int} (h1 : in_bounds x1 y1 = true)
    (h2 : in_bounds x2 y2 = true) (h : to_index x1 y1 = to_index x2 y2) :
    x1 = x2 ∧ y1 = y2 := by
  rw [in_bounds_iff] at h1 h2
  unfold to_index at h
  omega

/-! Pointwise behaviour of the bitset operations. -/

theorem BitBoard.set_apply (b : BitBoard) (i j : Int) :
    BitBoard.set b i j = if j = i then true else b j := rfl

theorem BitBoard.reset_apply (b : BitBoard) (i j : Int) :
    BitBoard.reset b i j = if j = i then false else b j := rfl

/-! Field projections of make_move: every branch of the win and draw tests
shares the cell array, the masks and the history of the pre-state, and
flips the player. -/

theorem make_pre_cells (b : Board) (m : Move) :
    (b.make_pre m).cells
      = fun j => if j = m.to_index then b.current_player else b.cells j := rfl

theorem make_pre_occ (b : Board) (m : Move) :
    (b.make_pre m).occupied_mask = BitBoard.set b.occupied_mask m.to_index := rfl

theorem make_pre_black (b : Board) (m : Move) :
    (b.make_pre m).black_mask
      = (if b.current_player = BLACK then BitBoard.set b.black_mask m.to_index
         else b.black_mask) := rfl

theorem make_pre_white (b : Board) (m : Move) :
    (b.make_pre m).white_mask
      = (if b.current_player = BLACK then b.white_mask
         else BitBoard.set b.white_mask m.to_index) := rfl

theorem make_pre_legal (b : Board) (m : Move) :
    (b.make_pre m).legal_mask
      = BitBoard.reset ((b.apply_stone m).update_legal_mask m) m.to_index := rfl

theorem make_pre_history (b : Board) (m : Move) :
    (b.make_pre m).history = b.history ++ [m] := rfl

theorem make_pre_terminal (b : Board) (m : Move) :
    (b.make_pre m).is_terminal = b.is_terminal := rfl

theorem make_move_cells (b : Board) (m : Move) :
    (b.make_move m).cells = (b.make_pre m).cells := by
  unfold Board.make_move
  by_cases h1 : (b.make_pre m).check_win m = true
  · rw [if_pos h1]
  · rw [if_neg h1]
    by_cases h2 : BitBoard.noneSet (b.make_pre m).legal_mask = true
    · rw [if_pos h2]
    · rw [if_neg h2]

theorem make_move_occ (b : Board) (m : Move) :
    (b.make_move m).occupied_mask = (b.make_pre m).occupied_mask := by
  unfold Board.make_move
  by_cases h1 : (b.make_pre m).check_win m = true
  · rw [if_pos h1]
  · rw [if_neg h1]
    by_cases h2 : BitBoard.noneSet (b.make_pre m).legal_mask = true
    · rw [if_pos h2]
    · rw [if_neg h2]

theorem make_move_black (b : Board) (m : Move) :
    (b.make_move m).black_mask = (b.make_pre m).black_mask := by
  unfold Board.make_move
  by_cases h1 : (b.make_pre m).check_win m = true
  · rw [if_pos h1]
  · rw [if_neg h1]
    by_cases h2 : BitBoard.noneSet (b.make_pre m).legal_mask = true
    · rw [if_pos h2]
    · rw [if_neg h2]

theorem make_move_white (b : Board) (m : Move) :
    (b.make_move m).white_mask = (b.make_pre m).white_mask := by
  unfold Board.make_move
  by_cases h1 : (b.make_pre m).check_win m = true
  · rw [if_pos h1]
  · rw [if_neg h1]
    by_cases h2 : BitBoard.noneSet (b.make_pre m).legal_mask = true
    · rw [if_pos h2]
    · rw [if_neg h2]

theorem make_move_legal (b : Board) (m : Move) :
    (b.make_move m).legal_mask = (b.make_pre m).legal_mask := by
  unfold Board.make_move
  by_cases h1 : (b.make_pre m).check_win m = true
  · rw [if_pos h1]
  · rw [if_neg h1]
    by_cases h2 : BitBoard.noneSet (b.make_pre m).legal_mask = true
    · rw [if_pos h2]
    · rw [if_neg h2]

theorem make_move_history (b : Board) (m : Move) :
    (b.make_move m).history = b.history ++ [m] := by
  unfold Board.make_move
  by_cases h1 : (b.make_pre m).check_win m = true
  · rw [if_pos h1]
    exact rfl
  · rw [if_neg h1]
    by_cases h2 : BitBoard.noneSet (b.make_pre m).legal_mask = true
    · rw [if_pos h2]
      exact rfl
    · rw [if_neg h2]
      exact rfl

theorem make_move_player (b : Board) (m : Move) :
    (b.make_move m).current_player = -b.current_player := by
  unfold Board.make_move
  by_cases h1 : (b.make_pre m).check_win m = true
  · rw [if_pos h1]
  · rw [if_neg h1]
    by_cases h2 : BitBoard.noneSet (b.make_pre m).legal_mask = true
    · rw [if_pos h2]
    · rw [if_neg h2]

theorem make_move_won (b : Board) (m : Move)
    (h : (b.make_pre m).check_win m = true) :
    (b.make_move m).is_terminal = true ∧
    (b.make_move m).result
      = (if b.current_player = BLACK then GameResult.BLACK_WIN
         else GameResult.WHITE_WIN) := by
  unfold Board.make_move
  rw [if_pos h]
  exact ⟨rfl, rfl⟩

theorem make_move_draw (b : Board) (m : Move)
    (h : (b.make_pre m).check_win m = false)
    (h2 : BitBoard.noneSet (b.make_pre m).legal_mask = true) :
    (b.make_move m).is_terminal = true ∧
    (b.make_move m).result = GameResult.DRAW := by
  unfold Board.make_move
  rw [if_neg (by rw [h]; exact Bool.false_ne_true), if_pos h2]
  exact ⟨rfl, rfl⟩

theorem make_move_quiet (b : Board) (m : Move)
    (h : (b.make_pre m).check_win m = false)
    (h2 : BitBoard.noneSet (b.make_pre m).legal_mask = false) :
    (b.make_move m).is_terminal = b.is_terminal ∧
    (b.make_move m).result = b.result := by
  unfold Board.make_move
  rw [if_neg (by rw [h]; exact Bool.false_ne_true),
      if_neg (by rw [h2]; exact Bool.false_ne_true)]
  exact ⟨rfl, rfl⟩

/-! The bridge between the pre-move consecutive counts of the heuristic and
the post-move win test of the board: a directional walk starting one
step away from (x, y) never revisits (x, y), so writing a stone at
(x, y) does not change the walk. -/

theorem countRun_update (cells : Int → Int) (x y dx dy p v : Int)
    (hb : in_bounds x y = true) (hd : ¬(dx = 0 ∧ dy = 0)) :
    ∀ (fuel k : Nat), 1 ≤ k →
      countRun (fun j => if j = to_index x y then v else cells j)
          (x + (k : Int) * dx) (y + (k : Int) * dy) dx dy p fuel
        = countRun cells (x + (k : Int) * dx) (y + (k : Int) * dy) dx dy p fuel := by
  intro fuel
  induction fuel with
  | zero => intro k hk; rfl
  | succ n ih =>
    intro k hk
    by_cases hin : in_bounds (x + (k : Int) * dx) (y + (k : Int) * dy) = true
    · have hne : ¬(x + (k : Int) * dx = x ∧ y + (k : Int) * dy = y) := by
        rintro ⟨hx, hy⟩
        have hkz : (k : Int) ≠ 0 := by
          simp only [ne_eq, Int.natCast_eq_zero]
          omega
        exact hd ⟨by
          have := mul_eq_zero.mp (by linarith : (k : Int) * dx = 0)
          tauto, by
          have := mul_eq_zero.mp (by linarith : (k : Int) * dy = 0)
          tauto⟩
      have hidx : to_index (x + (k : Int) * dx) (y + (k : Int) * dy) ≠ to_index x y := by
        intro h
        exact hne (to_index_inj hin hb h)
      unfold countRun
      simp only [hidx, if_false]
      by_cases hcell :
          cells (to_index (x + (k : Int) * dx) (y + (k : Int) * dy)) = p
      · rw [if_pos ⟨hin, hcell⟩, if_pos ⟨hin, hcell⟩]
        have harr : ∀ a b : Int, x + (k : Int) * a + a = x + ((k + 1 : Nat) : Int) * a := by
          intro a b
          push_cast
          ring
        have hx1 : x + (k : Int) * dx + dx = x + ((k + 1 : Nat) : Int) * dx := by
          push_cast; ring
        have hy1 : y + (k : Int) * dy + dy = y + ((k + 1 : Nat) : Int) * dy := by
          push_cast; ring
        rw [hx1, hy1, ih (k + 1) (by omega)]
      · rw [if_neg (by rintro ⟨-, hc⟩; exact hcell hc),
            if_neg (by rintro ⟨-, hc⟩; exact hcell hc)]
    · unfold countRun
      rw [if_neg (by rintro ⟨hc, -⟩; exact hin hc),
          if_neg (by rintro ⟨hc, -⟩; exact hin hc)]

theorem count_direction_make_pre (b : Board) (m : Move) {dx dy p : Int}
    (hb : in_bounds m.x m.y = true) (hd : ¬(dx = 0 ∧ dy = 0)) :
    Board.count_direction (b.make_pre m) m.x m.y dx dy p
      = Heuristic.count_consecutive b m.x m.y dx dy p := by
  unfold Board.count_direction Heuristic.count_consecutive
  rw [make_pre_cells]
  have h := countRun_update b.cells m.x m.y dx dy p b.current_player hb hd
    BOARD_CELLS 1 (le_refl 1)
  simpa using h

theorem list_any_of_eq {α : Type} {p q : α → Bool} :
    ∀ l : List α, (∀ a ∈ l, p a = q a) → l.any p = l.any q := by
  intro l
  induction l with
  | nil => intro _; rfl
  | cons a t ih =>
    intro h
    simp only [List.any_cons, h a (by simp), ih fun a ha => h a (by simp [ha])]

theorem check_win_make_pre (b : Board) (m : Move)
    (hb : in_bounds m.x m.y = true) :
    (b.make_pre m).check_win m = Heuristic.fourTest b b.current_player m := by
  have hplayer : (b.make_pre m).cells m.to_index = b.current_player := by
    rw [make_pre_cells]
    simp
  unfold Board.check_win Heuristic.fourTest
  rw [hplayer]
  refine list_any_of_eq DIRECTIONS ?_
  intro d hdmem
  have hd : ¬(d.1 = 0 ∧ d.2 = 0) := by
    simp only [DIRECTIONS] at hdmem
    fin_cases hdmem <;> decide
  have hd' : ¬(-d.1 = 0 ∧ -d.2 = 0) := by
    rintro ⟨h1, h2⟩
    exact hd ⟨by omega, by omega⟩
  rw [count_direction_make_pre b m hb hd, count_direction_make_pre b m hb hd']
  have : (5 ≤ 1 + Heuristic.count_consecutive b m.x m.y d.1 d.2 b.current_player
            + Heuristic.count_consecutive b m.x m.y (-d.1) (-d.2) b.current_player)
      ↔ (4 ≤ Heuristic.count_consecutive b m.x m.y d.1 d.2 b.current_player
            + Heuristic.count_consecutive b m.x m.y (-d.1) (-d.2) b.current_player) := by
    omega
  simp [this]

/-- A board whose in-range cells are all empty supports no run at all. -/
theorem countRun_empty_board (cells : Int → Int) {p : Int} (hp : p ≠ 0)
    (hc : ∀ i : Int, 0 ≤ i → i < 225 → cells i = 0) (nx ny dx dy : Int)
    (fuel : Nat) : countRun cells nx ny dx dy p fuel = 0 := by
  cases fuel with
  | zero => rfl
  | succ n =>
    unfold countRun
    rw [if_neg]
    rintro ⟨hin, hcell⟩
    have hr := to_index_range hin
    rw [hc _ hr.1 hr.2] at hcell
    exact hp hcell.symm

/-- The central equivalence: applying a move on an in-bounds cell of a
non-terminal board produces a terminal board won by the mover exactly
when some direction pair already counts four of the mover's stones
around the move. -/
theorem winsNow_iff (b : Board) (m : Move) (hb : in_bounds m.x m.y = true)
    (hp : b.current_player = 1 ∨ b.current_player = -1)
    (hT : b.is_terminal = false) :
    b.WinsNow m ↔ Heuristic.fourTest b b.current_player m = true := by
  unfold Board.WinsNow
  cases hw : (b.make_pre m).check_win m with
  | true =>
    have hts := make_move_won b m hw
    rw [check_win_make_pre b m hb] at hw
    constructor
    · intro _
      exact hw
    · intro _
      refine ⟨hts.1, ?_⟩
      rcases hp with hp | hp
      · norm_num [Board.get_winner, hts.2, hp, BLACK, WHITE]
      · norm_num [Board.get_winner, hts.2, hp, BLACK, WHITE]
  | false =>
    have hfour : Heuristic.fourTest b b.current_player m = false := by
      rw [← check_win_make_pre b m hb]
      exact hw
    rw [hfour]
    simp only [Bool.false_eq_true, iff_false]
    rintro ⟨hterm, hwin⟩
    cases hdr : BitBoard.noneSet (b.make_pre m).legal_mask with
    | true =>
      have hts := make_move_draw b m hw hdr
      rw [Board.get_winner, hts.2] at hwin
      rcases hp with hp | hp <;> (rw [hp] at hwin; exact absurd hwin (by decide))
    | false =>
      have hts := make_move_quiet b m hw hdr
      rw [hts.1, hT] at hterm
      exact absurd hterm (by decide)

/-! Legal-move enumeration. -/

theorem mem_get_legal_moves {b : Board} (h : b.history ≠ []) {m : Move} :
    m ∈ b.get_legal_moves ↔
      in_bounds m.x m.y = true ∧ b.legal_mask m.to_index = true := by
  unfold Board.get_legal_moves
  rw [if_neg (by simp [h])]
  rw [List.mem_map]
  constructor
  · rintro ⟨i, hmem, rfl⟩
    rw [List.mem_filter, List.mem_range] at hmem
    obtain ⟨hir, hbit⟩ := hmem
    have h0 : (0 : Int) ≤ (i : Int) := Int.natCast_nonneg i
    have h1 : ((i : Int)) < 225 := by
      simp only [BOARD_CELLS] at hir
      exact_mod_cast hir
    refine ⟨to_xy_in_bounds h0 h1, ?_⟩
    show b.legal_mask (to_index (to_x (i : Int)) (to_y (i : Int))) = true
    rw [to_index_to_xy]
    exact hbit
  · rintro ⟨hin, hbit⟩
    have hr := to_index_range hin
    refine ⟨(to_index m.x m.y).toNat, ?_, ?_⟩
    · rw [List.mem_filter, List.mem_range]
      constructor
      · simp only [BOARD_CELLS]
        omega
      · rw [Int.toNat_of_nonneg hr.1]
        exact hbit
    · rw [Int.toNat_of_nonneg hr.1, to_x_to_index hin, to_y_to_index hin]

theorem mem_get_legal_moves_valid {b : Board} {m : Move}
    (h : m ∈ b.get_legal_moves) : m.is_valid = true := by
  unfold Board.get_legal_moves at h
  by_cases he : b.history.isEmpty = true
  · rw [if_pos he] at h
    simp at h
    rw [h]
    decide
  · rw [if_neg he] at h
    rw [List.mem_map] at h
    obtain ⟨i, -, rfl⟩ := h
    have h0 : (0 : Int) ≤ (i : Int) := Int.natCast_nonneg i
    unfold Move.is_valid to_x to_y
    simp only [Bool.and_eq_true, decide_eq_true_eq]
    constructor
    · exact Int.emod_nonneg _ (by decide)
    · exact Int.ediv_nonneg h0 (by decide)

theorem is_legal_iff_mem {b : Board} (h : b.history ≠ []) (hd : b.DisjInv)
    {x y : Int} :
    b.is_legal x y = true ↔ (⟨x, y⟩ : Move) ∈ b.get_legal_moves := by
  rw [mem_get_legal_moves h]
  unfold Board.is_legal
  by_cases hin : in_bounds x y = true
  · rw [if_neg (by rw [hin]; decide),
        if_neg (by simp [h])]
    simp only [Bool.and_eq_true, Bool.not_eq_true']
    constructor
    · rintro ⟨hl, -⟩
      exact ⟨hin, hl⟩
    · rintro ⟨-, hl⟩
      refine ⟨hl, ?_⟩
      have hr := to_index_range hin
      by_contra hocc
      have hocc' : b.occupied_mask (to_index x y) = true := by
        cases hb2 : b.occupied_mask (to_index x y)
        · exact absurd hb2 hocc
        · rfl
      refine hd (to_index x y).toNat ?_ ?_
      · simp only [List.mem_range, BOARD_CELLS]
        omega
      · rw [Int.toNat_of_nonneg hr.1]
        exact ⟨hl, hocc'⟩
  · rw [if_pos (by simpa using hin)]
    constructor
    · intro hc
      exact absurd hc (by decide)
    · rintro ⟨hc, -⟩
      exact absurd hc hin

theorem is_legal_empty_cell {b : Board} (hI : b.Inv) {x y : Int}
    (h : b.is_legal x y = true) :
    in_bounds x y = true ∧ b.cells (to_index x y) = 0 := by
  obtain ⟨hM, -, -, hD⟩ := hI
  unfold Board.is_legal at h
  by_cases hin : in_bounds x y = true
  · refine ⟨hin, ?_⟩
    have hr := to_index_range hin
    have hm := hM (to_index x y).toNat
      (by simp only [List.mem_range, BOARD_CELLS]; omega)
    rw [Int.toNat_of_nonneg hr.1] at hm
    rw [if_neg (by rw [hin]; decide)] at h
    by_cases he : b.history.isEmpty = true
    · rw [if_pos he] at h
      unfold Board.is_empty Board.get at h
      simpa [EMPTY] using h
    · rw [if_neg he] at h
      simp only [Bool.and_eq_true, Bool.not_eq_true'] at h
      by_contra hc
      exact absurd (hm.2.1.mpr hc) (by rw [h.2]; exact Bool.false_ne_true)
  · rw [if_pos (by simpa using hin)] at h
    exact absurd h (by decide)

/-! Access to the invariant components at an integer index. -/

theorem maskInv_at {b : Board} (h : b.MaskInv) {i : Int} (h0 : 0 ≤ i)
    (h1 : i < 225) :
    (b.cells i = 0 ∨ b.cells i = 1 ∨ b.cells i = -1) ∧
    (b.occupied_mask i = true ↔ ¬ b.cells i = 0) ∧
    (b.black_mask i = true ↔ b.cells i = 1) ∧
    (b.white_mask i = true ↔ b.cells i = -1) := by
  have := h i.toNat (by simp only [List.mem_range, BOARD_CELLS]; omega)
  rwa [Int.toNat_of_nonneg h0] at this

theorem histInv_occ_at {b : Board} (h : b.HistInv) {i : Int} (h0 : 0 ≤ i)
    (h1 : i < 225) :
    b.occupied_mask i = true ↔ i ∈ b.history.map Move.to_index := by
  have := h.2.2 i.toNat (by simp only [List.mem_range, BOARD_CELLS]; omega)
  rwa [Int.toNat_of_nonneg h0] at this

/-! Bits added by the dilation loops target only unoccupied cells. -/

theorem foldl_bits_true {α : Type} (f : BitBoard → α → BitBoard)
    (P : Int → Prop)
    (hf : ∀ (l : BitBoard) (a : α) (i : Int), (f l a) i = true → l i = true ∨ P i) :
    ∀ (ds : List α) (l : BitBoard) (i : Int),
      (ds.foldl f l) i = true → l i = true ∨ P i := by
  intro ds
  induction ds with
  | nil =>
    intro l i h
    exact Or.inl h
  | cons a t ih =>
    intro l i h
    rcases ih (f l a) i h with h' | h'
    · exact hf l a i h'
    · exact Or.inr h'

theorem addRadiusBits_true {legal occ : BitBoard} {mx my i : Int}
    (h : addRadiusBits legal occ mx my i = true) :
    legal i = true ∨ occ i = false := by
  unfold addRadiusBits at h
  refine foldl_bits_true _ (fun i => occ i = false) ?_ LEGAL_DELTAS legal i h
  intro l dy i h
  refine foldl_bits_true _ (fun i => occ i = false) ?_ LEGAL_DELTAS l i h
  intro l dx i h
  by_cases hc : in_bounds (mx + dx) (my + dy) = true ∧
      occ (to_index (mx + dx) (my + dy)) = false
  · rw [if_pos hc, BitBoard.set_apply] at h
    by_cases hij : i = to_index (mx + dx) (my + dy)
    · right
      rw [hij]
      exact hc.2
    · left
      rwa [if_neg hij] at h
  · rw [if_neg hc] at h
    exact Or.inl h

theorem foldl_addRadius_true (occ : BitBoard) :
    ∀ (ds : List Move) (l : BitBoard) (i : Int),
      (ds.foldl (fun l m => addRadiusBits l occ m.x m.y) l) i = true →
      l i = true ∨ occ i = false := by
  intro ds
  induction ds with
  | nil =>
    intro l i h
    exact Or.inl h
  | cons a t ih =>
    intro l i h
    rcases ih _ i h with h' | h'
    · exact addRadiusBits_true h'
    · exact Or.inr h'

theorem rebuildLegal_true {h : List Move} {occ : BitBoard} {i : Int}
    (hl : rebuildLegal h occ i = true) :
    (h = [] ∧ i = to_index 7 7) ∨ occ i = false := by
  unfold rebuildLegal at hl
  by_cases he : h.isEmpty = true
  · rw [if_pos he, BitBoard.set_apply] at hl
    by_cases hij : i = to_index 7 7
    · exact Or.inl ⟨List.isEmpty_iff.mp he, hij⟩
    · rw [if_neg hij] at hl
      exact absurd hl (by simp [BitBoard.clear])
  · rw [if_neg he] at hl
    rcases foldl_addRadius_true occ h BitBoard.clear i hl with h' | h'
    · exact absurd h' (by simp [BitBoard.clear])
    · exact Or.inr h'

/-! Invariant preservation. -/

theorem inv_reset : Board.Inv Board.reset := by decide

theorem parityInv_player {b : Board} (hP : b.ParityInv) :
    b.current_player = 1 ∨ b.current_player = -1 := by
  unfold Board.ParityInv at hP
  by_cases he : Even b.history.length
  · rw [if_pos he] at hP
    exact Or.inl hP
  · rw [if_neg he] at hP
    exact Or.inr hP

theorem apply_stone_occ (b : Board) (m : Move) :
    (b.apply_stone m).occupied_mask = BitBoard.set b.occupied_mask m.to_index :=
  rfl

theorem apply_stone_legal (b : Board) (m : Move) :
    (b.apply_stone m).legal_mask = b.legal_mask := rfl

theorem apply_stone_history (b : Board) (m : Move) :
    (b.apply_stone m).history = b.history := rfl

theorem inv_make {b : Board} (m : Move) (hI : b.Inv)
    (hb : in_bounds m.x m.y = true) (he : b.cells m.to_index = 0) :
    (b.make_move m).Inv := by
  obtain ⟨hM, hH, hP, hD⟩ := hI
  have hp := parityInv_player hP
  have hidx : 0 ≤ m.to_index ∧ m.to_index < 225 := to_index_range hb
  have hmidx := maskInv_at hM hidx.1 hidx.2
  have hoccm : b.occupied_mask m.to_index = false := by
    cases hval : b.occupied_mask m.to_index
    · rfl
    · exact absurd (hmidx.2.1.mp hval) (by simp [he])
  have hblackm : b.black_mask m.to_index = false := by
    cases hval : b.black_mask m.to_index
    · rfl
    · have h1 := hmidx.2.2.1.mp hval
      rw [he] at h1
      exact absurd h1 (by decide)
  have hwhitem : b.white_mask m.to_index = false := by
    cases hval : b.white_mask m.to_index
    · rfl
    · have h1 := hmidx.2.2.2.mp hval
      rw [he] at h1
      exact absurd h1 (by decide)
  have hnotmem : m.to_index ∉ b.history.map Move.to_index := by
    intro hmem
    have h1 := (histInv_occ_at hH hidx.1 hidx.2).mpr hmem
    rw [hoccm] at h1
    exact absurd h1 (by decide)
  have hcells : ∀ j : Int, (b.make_move m).cells j
      = if j = m.to_index then b.current_player else b.cells j :=
    fun j => by rw [make_move_cells, make_pre_cells]
  have hocc : ∀ j : Int, (b.make_move m).occupied_mask j
      = if j = m.to_index then true else b.occupied_mask j :=
    fun j => by rw [make_move_occ, make_pre_occ, BitBoard.set_apply]
  have hblack : ∀ j : Int, (b.make_move m).black_mask j
      = (if b.current_player = BLACK
         then (if j = m.to_index then true else b.black_mask j)
         else b.black_mask j) := by
    intro j
    rw [make_move_black, make_pre_black]
    by_cases hpb : b.current_player = BLACK
    · rw [if_pos hpb, if_pos hpb, BitBoard.set_apply]
    · rw [if_neg hpb, if_neg hpb]
  have hwhite : ∀ j : Int, (b.make_move m).white_mask j
      = (if b.current_player = BLACK
         then b.white_mask j
         else (if j = m.to_index then true else b.white_mask j)) := by
    intro j
    rw [make_move_white, make_pre_white]
    by_cases hpb : b.current_player = BLACK
    · rw [if_pos hpb, if_pos hpb]
    · rw [if_neg hpb, if_neg hpb, BitBoard.set_apply]
  refine ⟨?_, ⟨?_, ?_, ?_⟩, ?_, ?_⟩
  · -- MaskInv
    intro i hir
    have h0 : (0 : Int) ≤ (i : Int) := Int.natCast_nonneg i
    have h1 : ((i : Int)) < 225 := by
      simp only [List.mem_range] at hir
      exact_mod_cast hir
    rw [hcells, hocc, hblack, hwhite]
    by_cases hii : (i : Int) = m.to_index
    · rw [hii, if_pos rfl, if_pos rfl, hblackm, hwhitem]
      rcases hp with hpv | hpv
      · have hpb : b.current_player = BLACK := hpv
        rw [if_pos hpb, if_pos rfl, if_pos hpb, hpv]
        norm_num
      · have hpb : ¬ b.current_player = BLACK := by
          rw [hpv]
          decide
        rw [if_neg hpb, if_neg hpb, if_pos rfl, hpv]
        norm_num
    · rw [if_neg hii, if_neg hii]
      have hm := maskInv_at hM h0 h1
      by_cases hpb : b.current_player = BLACK
      · rw [if_pos hpb, if_neg hii, if_pos hpb]
        exact hm
      · rw [if_neg hpb, if_neg hpb, if_neg hii]
        exact hm
  · -- HistInv: entries in bounds
    intro m' hm'
    rw [make_move_history] at hm'
    rcases List.mem_append.mp hm' with h' | h'
    · exact hH.1 m' h'
    · rw [List.mem_singleton.mp h']
      exact hb
  · -- HistInv: index list has no duplicates
    rw [make_move_history, List.map_append, List.map_singleton]
    refine List.Nodup.append hH.2.1 (List.nodup_singleton _) ?_
    intro a ha ha'
    rw [List.mem_singleton.mp ha'] at ha
    exact hnotmem ha
  · -- HistInv: occupied bits are exactly the history indices
    intro i hir
    have h0 : (0 : Int) ≤ (i : Int) := Int.natCast_nonneg i
    have h1 : ((i : Int)) < 225 := by
      simp only [List.mem_range] at hir
      exact_mod_cast hir
    rw [hocc, make_move_history, List.map_append, List.map_singleton]
    by_cases hii : (i : Int) = m.to_index
    · rw [if_pos hii]
      simp [hii]
    · rw [if_neg hii]
      rw [histInv_occ_at hH h0 h1]
      simp [List.mem_append, hii]
  · -- ParityInv
    unfold Board.ParityInv at hP ⊢
    rw [make_move_player, make_move_history, List.length_append,
        List.length_singleton, hP]
    by_cases he2 : Even b.history.length
    · rw [if_pos he2, if_neg (by simp [Nat.even_add_one, he2])]
      norm_num [BLACK, WHITE]
    · rw [if_neg he2, if_pos (by simp [Nat.even_add_one, he2])]
      norm_num [BLACK, WHITE]
  · -- DisjInv
    intro i hir
    rintro ⟨hl, ho⟩
    rw [make_move_legal, make_pre_legal, BitBoard.reset_apply] at hl
    by_cases hii : (i : Int) = m.to_index
    · rw [if_pos hii] at hl
      exact absurd hl (by decide)
    · rw [if_neg hii] at hl
      rw [hocc, if_neg hii] at ho
      simp only [Board.update_legal_mask] at hl
      rcases addRadiusBits_true hl with hl0 | hoccf
      · have hbl : b.legal_mask (i : Int) = true := by
          rw [apply_stone_legal, apply_stone_history] at hl0
          by_cases hcnd : (b.history.isEmpty && BitBoard.noneSet b.legal_mask)
              = true
          · rw [if_pos hcnd, BitBoard.set_apply, if_neg hii] at hl0
            exact hl0
          · rw [if_neg hcnd] at hl0
            exact hl0
        exact hD i hir ⟨hbl, ho⟩
      · rw [apply_stone_occ, BitBoard.set_apply, if_neg hii, ho] at hoccf
        exact absurd hoccf (by decide)

theorem unmake_eq_core {b : Board} (m : Move) (h : b.history ≠ []) :
    b.unmake_move m = b.unmake_core m := by
  unfold Board.unmake_move
  rw [if_neg (by simp [h])]

theorem unmake_core_cells (b : Board) (m : Move) :
    (b.unmake_core m).cells
      = fun j => if j = m.to_index then EMPTY else b.cells j := rfl

theorem unmake_core_occ (b : Board) (m : Move) :
    (b.unmake_core m).occupied_mask
      = BitBoard.reset b.occupied_mask m.to_index := rfl

theorem unmake_core_black (b : Board) (m : Move) :
    (b.unmake_core m).black_mask = BitBoard.reset b.black_mask m.to_index := rfl

theorem unmake_core_white (b : Board) (m : Move) :
    (b.unmake_core m).white_mask = BitBoard.reset b.white_mask m.to_index := rfl

theorem unmake_core_legal (b : Board) (m : Move) :
    (b.unmake_core m).legal_mask
      = rebuildLegal b.history.dropLast
          (BitBoard.reset b.occupied_mask m.to_index) := rfl

theorem unmake_core_player (b : Board) (m : Move) :
    (b.unmake_core m).current_player = -b.current_player := rfl

theorem unmake_core_history (b : Board) (m : Move) :
    (b.unmake_core m).history = b.history.dropLast := rfl

theorem inv_unmake {b : Board} (m : Move) (hI : b.Inv)
    (hlast : b.history.getLast? = some m) : (b.unmake_move m).Inv := by
  obtain ⟨hM, hH, hP, hD⟩ := hI
  have hne : b.history ≠ [] := by
    intro h
    rw [h] at hlast
    cases hlast
  have hgl : b.history.getLast hne = m := by
    have h1 := List.getLast?_eq_getLast b.history hne
    rw [hlast] at h1
    exact (Option.some_injective _ h1).symm
  have hsplit : b.history = b.history.dropLast ++ [m] := by
    conv_lhs => rw [← List.dropLast_append_getLast hne]
    rw [hgl]
  have hmem : m ∈ b.history := by
    rw [hsplit]
    simp
  have hb : in_bounds m.x m.y = true := hH.1 m hmem
  have hidx := to_index_range hb
  have hndsplit : (b.history.dropLast.map Move.to_index ++ [m.to_index]).Nodup := by
    have h1 := hH.2.1
    rw [hsplit, List.map_append, List.map_singleton] at h1
    exact h1
  have hnotmem : m.to_index ∉ b.history.dropLast.map Move.to_index := by
    intro h1
    exact List.disjoint_of_nodup_append hndsplit h1 (by simp)
  have hmemmap : ∀ i : Int, i ∈ b.history.map Move.to_index
      ↔ (i ∈ b.history.dropLast.map Move.to_index ∨ i = m.to_index) := by
    intro i
    conv_lhs => rw [hsplit]
    simp [List.mem_append]
  rw [unmake_eq_core m hne]
  refine ⟨?_, ⟨?_, ?_, ?_⟩, ?_, ?_⟩
  · -- MaskInv
    intro i hir
    have h0 : (0 : Int) ≤ (i : Int) := Int.natCast_nonneg i
    have h1 : ((i : Int)) < 225 := by
      simp only [List.mem_range, BOARD_CELLS] at hir
      exact_mod_cast hir
    rw [unmake_core_cells, unmake_core_occ, unmake_core_black,
        unmake_core_white, BitBoard.reset_apply, BitBoard.reset_apply,
        BitBoard.reset_apply]
    simp only []
    by_cases hii : (i : Int) = m.to_index
    · rw [if_pos hii, if_pos hii, if_pos hii, if_pos hii]
      norm_num [EMPTY]
    · rw [if_neg hii, if_neg hii, if_neg hii, if_neg hii]
      exact maskInv_at hM h0 h1
  · -- HistInv: entries in bounds
    intro m' hm'
    rw [unmake_core_history] at hm'
    exact hH.1 m' ((List.dropLast_sublist b.history).mem hm')
  · -- HistInv: no duplicate indices
    rw [unmake_core_history]
    exact hndsplit.of_append_left
  · -- HistInv: occupied bits are the remaining history indices
    intro i hir
    have h0 : (0 : Int) ≤ (i : Int) := Int.natCast_nonneg i
    have h1 : ((i : Int)) < 225 := by
      simp only [List.mem_range, BOARD_CELLS] at hir
      exact_mod_cast hir
    rw [unmake_core_occ, unmake_core_history, BitBoard.reset_apply]
    by_cases hii : (i : Int) = m.to_index
    · rw [if_pos hii]
      constructor
      · intro h'
        exact absurd h' (by decide)
      · intro h'
        rw [hii] at h'
        exact absurd h' hnotmem
    · rw [if_neg hii]
      rw [histInv_occ_at hH h0 h1, hmemmap]
      simp [hii]
  · -- ParityInv
    have hlen : 1 ≤ b.history.length := List.length_pos.mpr hne
    unfold Board.ParityInv at hP ⊢
    rw [unmake_core_player, unmake_core_history, List.length_dropLast, hP]
    by_cases he2 : Even b.history.length
    · rw [if_pos he2,
          if_neg (by
            rw [Nat.not_even_iff_odd]
            exact Nat.Even.sub_odd hlen he2 odd_one)]
      norm_num [BLACK, WHITE]
    · rw [if_neg he2,
          if_pos (Nat.Odd.sub_odd (Nat.not_even_iff_odd.mp he2) odd_one)]
      norm_num [BLACK, WHITE]
  · -- DisjInv
    intro i hir
    have h0 : (0 : Int) ≤ (i : Int) := Int.natCast_nonneg i
    have h1 : ((i : Int)) < 225 := by
      simp only [List.mem_range, BOARD_CELLS] at hir
      exact_mod_cast hir
    rintro ⟨hl, ho⟩
    rw [unmake_core_legal] at hl
    rw [unmake_core_occ, BitBoard.reset_apply] at ho
    by_cases hii : (i : Int) = m.to_index
    · rw [if_pos hii] at ho
      exact absurd ho (by decide)
    · rw [if_neg hii] at ho
      rcases rebuildLegal_true hl with ⟨hemp, hi7⟩ | hof
      · have h2 := (histInv_occ_at hH h0 h1).mp ho
        rw [hmemmap, hemp] at h2
        simp at h2
        exact hii h2
      · rw [BitBoard.reset_apply, if_neg hii, ho] at hof
        exact absurd hof (by decide)

theorem reachable_inv {b : Board} (h : b.Reachable) : b.Inv := by
  induction h with
  | base => exact inv_reset
  | make m hR hb he ih => exact inv_make m ih hb he
  | unmake m hR hl ih => exact inv_unmake m ih hl

/-! The population count of the occupied mask equals the history length. -/

theorem count_eq_length {b : Board} (hI : b.Inv) :
    BitBoard.count b.occupied_mask = b.history.length := by
  obtain ⟨hM, ⟨hHb, hHn, hHo⟩, hP, hD⟩ := hI
  have hbound : ∀ j ∈ b.history.map Move.to_index, 0 ≤ j ∧ j < 225 := by
    intro j hj
    rw [List.mem_map] at hj
    obtain ⟨m', hm', rfl⟩ := hj
    exact to_index_range (hHb m' hm')
  have hnodup1 :
      ((List.range BOARD_CELLS).filter
        (fun i : Nat => b.occupied_mask (i : Int))).Nodup :=
    (List.nodup_range _).filter _
  have hnodup2 : ((b.history.map Move.to_index).map Int.toNat).Nodup := by
    refine hHn.map_on ?_
    intro a ha c hc hac
    have ha' := hbound a ha
    have hc' := hbound c hc
    omega
  have hmem : ∀ n : Nat,
      n ∈ (List.range BOARD_CELLS).filter
            (fun i : Nat => b.occupied_mask (i : Int))
        ↔ n ∈ (b.history.map Move.to_index).map Int.toNat := by
    intro n
    rw [List.mem_filter, List.mem_range, List.mem_map]
    constructor
    · rintro ⟨hn, hocc⟩
      have h1 : ((n : Int)) < 225 := by
        simp only [BOARD_CELLS] at hn
        exact_mod_cast hn
      have h2 := (histInv_occ_at ⟨hHb, hHn, hHo⟩ (Int.natCast_nonneg n) h1).mp hocc
      exact ⟨(n : Int), h2, by simp⟩
    · rintro ⟨j, hj, rfl⟩
      have hb' := hbound j hj
      have hcast : ((j.toNat : Nat) : Int) = j := Int.toNat_of_nonneg hb'.1
      constructor
      · simp only [BOARD_CELLS]
        omega
      · rw [hcast]
        exact (histInv_occ_at ⟨hHb, hHn, hHo⟩ hb'.1 hb'.2).mpr hj
  have hperm := (List.perm_ext_iff_of_nodup hnodup1 hnodup2).mpr hmem
  unfold BitBoard.count
  rw [List.countP_eq_length_filter, List.Perm.length_eq hperm,
      List.length_map, List.length_map]

/-! C3 — the board invariants along every reachable state. -/

/-- C3: after every public Board operation under its precondition — reset,
make_move on an in-bounds empty target, unmake_move passed the last
history entry — the legal and occupied masks are disjoint, the move
count equals both the population count of the occupied mask and the
history length, and the side to move is black exactly on even move
counts. -/
theorem board_invariants (b : Board) (h : b.Reachable) :
    (∀ i ∈ List.range BOARD_CELLS,
      ¬(b.legal_mask (i : Int) = true ∧ b.occupied_mask (i : Int) = true)) ∧
    b.move_count = BitBoard.count b.occupied_mask ∧
    b.move_count = b.history.length ∧
    (b.current_player = BLACK ↔ Even b.move_count) := by
  have hI := reachable_inv h
  obtain ⟨hM, hH, hP, hD⟩ := hI
  refine ⟨hD, ?_, rfl, ?_⟩
  · rw [Board.move_count, count_eq_length ⟨hM, hH, hP, hD⟩]
  · unfold Board.ParityInv at hP
    unfold Board.move_count
    by_cases he : Even b.history.length
    · rw [hP, if_pos he]
      simp [he]
    · rw [hP, if_neg he]
      norm_num [BLACK, WHITE, he]

theorem board_invariants_witness :
    (∀ i ∈ List.range BOARD_CELLS,
      ¬(oneMoveBoard.legal_mask (i : Int) = true ∧
        oneMoveBoard.occupied_mask (i : Int) = true)) ∧
    oneMoveBoard.move_count = BitBoard.count oneMoveBoard.occupied_mask ∧
    oneMoveBoard.move_count = oneMoveBoard.history.length ∧
    (oneMoveBoard.current_player = BLACK ↔ Even oneMoveBoard.move_count) :=
  board_invariants oneMoveBoard
    (Board.Reachable.make ⟨7, 7⟩ Board.Reachable.base (by decide) rfl)

/-! Reachability of concrete boards built from legal move sequences. -/

theorem reachable_applyAll :
    ∀ (ms : List Move) (b : Board), b.Reachable →
      Board.legal_seq b ms = true → (b.applyAll ms).Reachable := by
  intro ms
  induction ms with
  | nil =>
    intro b hR _
    exact hR
  | cons m t ih =>
    intro b hR hseq
    unfold Board.legal_seq at hseq
    rw [Bool.and_eq_true] at hseq
    have hec := is_legal_empty_cell (reachable_inv hR) hseq.1
    exact ih (b.make_move m) (Board.Reachable.make m hR hec.1 hec.2) hseq.2

theorem winDemoReachable : winDemoBoard.Reachable :=
  reachable_applyAll winDemoChain Board.reset Board.Reachable.base (by decide)

theorem reachable_applyAll_open :
    ∀ (ms : List Move) (b : Board), b.Reachable →
      Board.open_seq b ms = true → (b.applyAll ms).Reachable := by
  intro ms
  induction ms with
  | nil =>
    intro b hR _
    exact hR
  | cons m t ih =>
    intro b hR hseq
    unfold Board.open_seq at hseq
    rw [Bool.and_eq_true, Bool.and_eq_true] at hseq
    obtain ⟨⟨hb, he⟩, hrest⟩ := hseq
    rw [decide_eq_true_eq] at he
    exact ih (b.make_move m) (Board.Reachable.make m hR hb he) hrest

theorem blockDemoReachable : blockDemoBoard.Reachable :=
  reachable_applyAll_open blockDemoChain Board.reset Board.Reachable.base
    (by decide)

/-! C1 — find_winning_move. -/

/-- C1 counterexample: quantified over every board, the claim fails once
play continues past a finished game (legal under the radius rule, which
ignores terminality).  On playOnBoard — reached from the fresh board by
legal moves only — the winner (black) is again the side to move, so any
quiet legal move such as (7, 5) keeps the board terminal with the
current player winning; yet no direction counts four, so
find_winning_move returns the invalid sentinel. -/
theorem find_winning_move_claim_false :
    Board.legal_seq Board.reset playOnChain = true ∧
    playOnBoard.is_terminal = true ∧
    playOnBoard.is_legal 7 5 = true ∧
    Board.WinsNow playOnBoard ⟨7, 5⟩ ∧
    (Heuristic.find_winning_move playOnBoard).is_valid = false :=
  ⟨by decide, by decide, by decide, by decide, by decide⟩

/-- C1 amended: on boards satisfying the data-model invariants that are not
already terminal, find_winning_move returns a valid move exactly when a
legal move wins immediately: any returned move is legal and winning,
and when the sentinel is returned no legal move applied by the current
player yields a terminal board won by them. -/
theorem find_winning_move_correct (b : Board) (hI : b.Inv)
    (hT : b.is_terminal = false) :
    ((Heuristic.find_winning_move b).is_valid = true →
      b.is_legal (Heuristic.find_winning_move b).x
        (Heuristic.find_winning_move b).y = true ∧
      b.WinsNow (Heuristic.find_winning_move b)) ∧
    ((Heuristic.find_winning_move b).is_valid = false →
      ∀ x y : Int, b.is_legal x y = true → ¬ b.WinsNow ⟨x, y⟩) := by
  have hp := parityInv_player hI.2.2.1
  by_cases hh : b.history = []
  · -- empty board: every cell is empty, so no four exists anywhere
    have hcells : ∀ i : Int, 0 ≤ i → i < 225 → b.cells i = 0 := by
      intro i h0 h1
      have hocc : b.occupied_mask i = false := by
        cases hval : b.occupied_mask i
        · rfl
        · have h2 := (histInv_occ_at hI.2.1 h0 h1).mp hval
          rw [hh] at h2
          simp at h2
      have hm := maskInv_at hI.1 h0 h1
      by_contra hc
      exact absurd (hm.2.1.mpr hc) (by rw [hocc]; decide)
    have hfourfalse : ∀ m : Move,
        Heuristic.fourTest b b.current_player m = false := by
      intro m
      unfold Heuristic.fourTest
      rw [List.any_eq_false]
      intro d hd
      unfold Heuristic.count_consecutive
      rw [countRun_empty_board b.cells
            (by rcases hp with hp | hp <;> (rw [hp]; decide)) hcells,
          countRun_empty_board b.cells
            (by rcases hp with hp | hp <;> (rw [hp]; decide)) hcells]
      decide
    have hfw : Heuristic.find_winning_move b = Move.invalid := by
      simp only [Heuristic.find_winning_move]
      rw [Board.get_legal_moves, if_pos (by simp [hh])]
      simp [List.find?, hfourfalse ⟨7, 7⟩]
    rw [hfw]
    constructor
    · intro hv
      exact absurd hv (by decide)
    · intro _ x y hleg
      have hec := is_legal_empty_cell hI hleg
      rw [winsNow_iff b ⟨x, y⟩ hec.1 hp hT, hfourfalse ⟨x, y⟩]
      decide
  · -- non-empty history: scan over the enumerated legal moves
    cases hfind : b.get_legal_moves.find?
        (Heuristic.fourTest b b.current_player) with
    | some mv =>
      have hfw : Heuristic.find_winning_move b = mv := by
        simp only [Heuristic.find_winning_move]
        rw [hfind]
      have hmemv := List.mem_of_find?_eq_some hfind
      have hpred := List.find?_some hfind
      have hmv := (mem_get_legal_moves hh).mp hmemv
      rw [hfw]
      constructor
      · intro _
        refine ⟨?_, (winsNow_iff b mv hmv.1 hp hT).mpr hpred⟩
        rw [is_legal_iff_mem hh hI.2.2.2]
        exact hmemv
      · intro hv
        rw [mem_get_legal_moves_valid hmemv] at hv
        exact absurd hv (by decide)
    | none =>
      have hfw : Heuristic.find_winning_move b = Move.invalid := by
        simp only [Heuristic.find_winning_move]
        rw [hfind]
      rw [hfw]
      constructor
      · intro hv
        exact absurd hv (by decide)
      · intro _ x y hleg
        have hmem := (is_legal_iff_mem hh hI.2.2.2).mp hleg
        have hbxy : in_bounds x y = true := ((mem_get_legal_moves hh).mp hmem).1
        rw [winsNow_iff b ⟨x, y⟩ hbxy hp hT]
        intro hcontra
        exact List.find?_eq_none.mp hfind _ hmem hcontra

theorem find_winning_move_correct_witness :
    winDemoBoard.Inv ∧ winDemoBoard.is_terminal = false ∧
    (((Heuristic.find_winning_move winDemoBoard).is_valid = true →
      winDemoBoard.is_legal (Heuristic.find_winning_move winDemoBoard).x
        (Heuristic.find_winning_move winDemoBoard).y = true ∧
      winDemoBoard.WinsNow (Heuristic.find_winning_move winDemoBoard)) ∧
    ((Heuristic.find_winning_move winDemoBoard).is_valid = false →
      ∀ x y : Int, winDemoBoard.is_legal x y = true →
        ¬ winDemoBoard.WinsNow ⟨x, y⟩)) :=
  ⟨reachable_inv winDemoReachable, by decide,
    find_winning_move_correct winDemoBoard (reachable_inv winDemoReachable)
      (by decide)⟩

/-! C2 — find_blocking_move. -/

/-- C2 counterexample: quantified over every board, the claim fails on a
finished game with the winner about to move.  On blockPlayOnBoard —
reached from the fresh board by legal moves only — find_winning_move
(for white, the side to move) is invalid, and any quiet legal move by
the opponent black, such as (7, 1), keeps the board terminal with black
winning, so the claim's hypothesis holds; yet black's five is blocked
at both ends, no cell carries an opponent count of four, and
find_blocking_move returns the invalid sentinel. -/
theorem find_blocking_move_claim_false :
    Board.legal_seq Board.reset blockPlayOnChain = true ∧
    blockPlayOnBoard.is_terminal = true ∧
    (Heuristic.find_winning_move blockPlayOnBoard).is_valid = false ∧
    blockPlayOnBoard.is_legal 7 1 = true ∧
    (blockPlayOnBoard.flip_player).WinsNow ⟨7, 1⟩ ∧
    (Heuristic.find_blocking_move blockPlayOnBoard).is_valid = false :=
  ⟨by decide, by decide, by decide, by decide, by decide, by decide⟩

/-- C2 amended: on well-formed boards that are not already terminal, when
find_winning_move is invalid and some legal move played by the opponent
would win for them at once, find_blocking_move returns a valid legal
move at which the opponent's two-directional consecutive count reaches
at least four in some direction — a cell on one of the opponent's
immediate winning lines. -/
theorem find_blocking_move_correct (b : Board) (hI : b.Inv)
    (hT : b.is_terminal = false)
    (hw : (Heuristic.find_winning_move b).is_valid = false)
    (hx : ∃ x y : Int, b.is_legal x y = true ∧
          (b.flip_player).WinsNow ⟨x, y⟩) :
    (Heuristic.find_blocking_move b).is_valid = true ∧
    b.is_legal (Heuristic.find_blocking_move b).x
      (Heuristic.find_blocking_move b).y = true ∧
    Heuristic.fourTest b
      (if b.current_player = BLACK then WHITE else BLACK)
      (Heuristic.find_blocking_move b) = true := by
  obtain ⟨x, y, hleg, hwins⟩ := hx
  have hp := parityInv_player hI.2.2.1
  have hpf : (b.flip_player).current_player = -b.current_player := rfl
  have hpo : (b.flip_player).current_player
      = (if b.current_player = BLACK then WHITE else BLACK) := by
    rw [hpf]
    rcases hp with hp | hp
    · rw [hp]
      decide
    · rw [hp]
      decide
  have hpf2 : (b.flip_player).current_player = 1 ∨
      (b.flip_player).current_player = -1 := by
    rw [hpf]
    rcases hp with hp | hp
    · rw [hp]
      right
      decide
    · rw [hp]
      left
      decide
  have hec := is_legal_empty_cell hI hleg
  have hfourflip := (winsNow_iff (b.flip_player) ⟨x, y⟩ hec.1 hpf2 hT).mp hwins
  have hfour : Heuristic.fourTest b
      (if b.current_player = BLACK then WHITE else BLACK) ⟨x, y⟩ = true := by
    rw [← hpo]
    exact hfourflip
  have hh : b.history ≠ [] := by
    intro hh
    have hcells : ∀ i : Int, 0 ≤ i → i < 225 → b.cells i = 0 := by
      intro i h0 h1
      have hocc : b.occupied_mask i = false := by
        cases hval : b.occupied_mask i
        · rfl
        · have h2 := (histInv_occ_at hI.2.1 h0 h1).mp hval
          rw [hh] at h2
          simp at h2
      have hm := maskInv_at hI.1 h0 h1
      by_contra hc
      exact absurd (hm.2.1.mpr hc) (by rw [hocc]; decide)
    have hzero : Heuristic.fourTest b
        (if b.current_player = BLACK then WHITE else BLACK) ⟨x, y⟩
        = false := by
      unfold Heuristic.fourTest
      rw [List.any_eq_false]
      intro d hd
      unfold Heuristic.count_consecutive
      have hop : (if b.current_player = BLACK then WHITE else BLACK) ≠ 0 := by
        rcases hp with hp | hp <;> (rw [hp]; decide)
      rw [countRun_empty_board b.cells hop hcells,
          countRun_empty_board b.cells hop hcells]
      decide
    rw [hzero] at hfour
    exact absurd hfour (by decide)
  have hmem := (is_legal_iff_mem hh hI.2.2.2).mp hleg
  cases hfind : b.get_legal_moves.find?
      (Heuristic.fourTest b (if b.current_player = BLACK then WHITE else BLACK))
      with
  | some mv =>
    have hfb : Heuristic.find_blocking_move b = mv := by
      simp only [Heuristic.find_blocking_move]
      rw [hfind]
    have hmemv := List.mem_of_find?_eq_some hfind
    have hpred := List.find?_some hfind
    rw [hfb]
    refine ⟨mem_get_legal_moves_valid hmemv, ?_, hpred⟩
    rw [is_legal_iff_mem hh hI.2.2.2]
    exact hmemv
  | none =>
    exact absurd hfour (List.find?_eq_none.mp hfind _ hmem)

theorem find_blocking_move_correct_witness :
    blockDemoBoard.Inv ∧ blockDemoBoard.is_terminal = false ∧
    (Heuristic.find_winning_move blockDemoBoard).is_valid = false ∧
    (∃ x y : Int, blockDemoBoard.is_legal x y = true ∧
      (blockDemoBoard.flip_player).WinsNow ⟨x, y⟩) ∧
    ((Heuristic.find_blocking_move blockDemoBoard).is_valid = true ∧
     blockDemoBoard.is_legal (Heuristic.find_blocking_move blockDemoBoard).x
       (Heuristic.find_blocking_move blockDemoBoard).y = true ∧
     Heuristic.fourTest blockDemoBoard
       (if blockDemoBoard.current_player = BLACK then WHITE else BLACK)
       (Heuristic.find_blocking_move blockDemoBoard) = true) :=
  ⟨reachable_inv blockDemoReachable, by decide, by decide,
    ⟨2, 7, by decide, by decide⟩,
    find_blocking_move_correct blockDemoBoard
      (reachable_inv blockDemoReachable) (by decide) (by decide)
      ⟨2, 7, by decide, by decide⟩⟩

/-! C8 — unmake_move on an empty history. -/

/-- C8: calling unmake_move on a board whose history is empty leaves every
field of the board unchanged, whatever the move argument. -/
theorem unmake_move_empty_history_noop (b : Board) (h : b.history = [])
    (m : Move) : b.unmake_move m = b := by
  simp [Board.unmake_move, h]

theorem unmake_move_empty_history_noop_witness :
    Board.reset.history = [] ∧ Board.reset.unmake_move ⟨3, 4⟩ = Board.reset :=
  ⟨rfl, unmake_move_empty_history_noop Board.reset rfl ⟨3, 4⟩⟩

/-! C5 — first-move legality. -/

/-- C5 counterexample: the claim that with an empty history is_legal accepts
only the center cell (7, 7) is false: on the fresh board is_legal
accepts (0, 0). -/
theorem first_move_is_legal_claim_false :
    ¬ (∀ b : Board, b.history = [] → ∀ x y : Int, in_bounds x y = true →
        ¬(x = 7 ∧ y = 7) → b.is_legal x y = false) := by
  intro h
  exact absurd (h Board.reset rfl 0 0 (by decide) (by decide)) (by decide)

/-- C5 amended: with an empty history the legal-move enumerator returns
exactly the center move (7, 7), while is_legal accepts every in-bounds
empty cell (not only the center). -/
theorem first_move_legality (b : Board) (h : b.history = []) :
    b.get_legal_moves = [⟨7, 7⟩] ∧
    ∀ x y : Int, b.is_legal x y = (in_bounds x y && b.is_empty x y) := by
  constructor
  · simp [Board.get_legal_moves, h]
  · intro x y
    cases hb : in_bounds x y <;> simp [Board.is_legal, h, hb]

theorem first_move_legality_witness :
    Board.reset.history = [] ∧
    (Board.reset.get_legal_moves = [⟨7, 7⟩] ∧
     ∀ x y : Int,
       Board.reset.is_legal x y = (in_bounds x y && Board.reset.is_empty x y)) :=
  ⟨rfl, first_move_legality Board.reset rfl⟩

/-! C9 — enumeration ignores terminality. -/

/-- C9: on a non-empty history, get_legal_moves returns exactly the set bits
of the legal mask in index order, whatever the terminal flag and result
are — so a board just won by five in a row still enumerates its
radius-2 empty cells. -/
theorem get_legal_moves_ignores_terminal (b : Board) (t : Bool)
    (r : GameResult) (h : b.history ≠ []) :
    ({ b with is_terminal := t, result := r } : Board).get_legal_moves
      = ((List.range BOARD_CELLS).filter
          (fun i : Nat => b.legal_mask (i : Int))).map
          (fun i : Nat => ⟨to_x (i : Int), to_y (i : Int)⟩) := by
  simp [Board.get_legal_moves, h]

theorem get_legal_moves_ignores_terminal_witness :
    termDemoBoard.history ≠ [] ∧ termDemoBoard.is_terminal = true ∧
    ({ termDemoBoard with is_terminal := true, result := GameResult.BLACK_WIN } : Board).get_legal_moves
      = ((List.range BOARD_CELLS).filter
          (fun i : Nat => termDemoBoard.legal_mask (i : Int))).map
          (fun i : Nat => ⟨to_x (i : Int), to_y (i : Int)⟩) :=
  ⟨by decide, by decide,
    get_legal_moves_ignores_terminal termDemoBoard true GameResult.BLACK_WIN
      (by decide)⟩

/-! C6 — rollout value on a terminal board. -/

/-- C6 counterexample: the claim that a terminal rollout is +1 when the
terminal board's current player equals the winner and -1 otherwise is
false: on the black-won board it is white to move, the winner is black,
and the rollout value is +1, where the claim demands -1. -/
theorem rollout_terminal_claim_false :
    ¬ (∀ (b : Board) (pl : Int), b.is_terminal = true →
        MCTS.rollout b pl =
          (if b.get_winner = EMPTY then 0
           else if b.get_winner = b.current_player then 1 else -1)) := by
  intro h
  exact absurd (h termDemoBoard 0 (by decide)) (by decide)

/-- C6 amended: on a terminal board the rollout value is 0 when there is no
winner (a draw), -1 when the winner equals the board's current player
(the player who would move next), and +1 otherwise. -/
theorem rollout_terminal_value (b : Board) (pl : Int)
    (h : b.is_terminal = true) :
    MCTS.rollout b pl =
      (if b.get_winner = EMPTY then 0
       else if b.get_winner = b.current_player then -1 else 1) := by
  simp [MCTS.rollout, h]

/-! C10 — the comma form of the move parser. -/

theorem takeWhile_of_all {p : Char → Bool} :
    ∀ l : List Char, (∀ c ∈ l, p c = true) → l.takeWhile p = l := by
  intro l
  induction l with
  | nil => intro _; rfl
  | cons c t ih =>
    intro h
    rw [List.takeWhile_cons, h c (by simp)]
    simp [ih fun c hc => h c (by simp [hc])]

theorem findIdx_append_of_first {p : Char → Bool} {a : Char} (es : List Char)
    (ha : p a = true) :
    ∀ ds : List Char, (∀ c ∈ ds, p c = false) →
      (ds ++ a :: es).findIdx p = ds.length := by
  intro ds
  induction ds with
  | nil => intro _; simp [List.findIdx_cons, ha]
  | cons c t ih =>
    intro h
    rw [List.cons_append, List.findIdx_cons, h c (by simp)]
    simp [ih fun c hc => h c (by simp [hc])]

theorem digit_not_alpha {c : Char} (h : isdigitChar c = true) :
    isalphaChar c = false := by
  simp only [isdigitChar, Bool.and_eq_true, decide_eq_true_eq] at h
  simp only [isalphaChar, Bool.or_eq_false_iff, Bool.and_eq_false_iff,
    decide_eq_false_iff_not, not_le]
  omega

theorem digit_not_space {c : Char} (h : isdigitChar c = true) :
    isspaceChar c = false := by
  simp only [isdigitChar, Bool.and_eq_true, decide_eq_true_eq] at h
  simp only [isspaceChar, Bool.or_eq_false_iff, Bool.and_eq_false_iff,
    decide_eq_false_iff_not, not_le]
  omega

theorem digit_ne_minus {c : Char} (h : isdigitChar c = true) : c ≠ '-' := by
  intro hc
  subst hc
  exact absurd h (by decide)

theorem digit_ne_plus {c : Char} (h : isdigitChar c = true) : c ≠ '+' := by
  intro hc
  subst hc
  exact absurd h (by decide)

theorem digit_ne_comma {c : Char} (h : isdigitChar c = true) : c ≠ ',' := by
  intro hc
  subst hc
  exact absurd h (by decide)

theorem stoi_of_numeral {ds : List Char} {n : Nat} (h : NatNumeral ds n) :
    stoi ds = some (n : Int) := by
  obtain ⟨hne, hdig, hval⟩ := h
  obtain ⟨c, t, rfl⟩ := List.exists_cons_of_ne_nil hne
  have hc : isdigitChar c = true := hdig c (by simp)
  unfold stoi
  rw [List.dropWhile_cons, digit_not_space hc]
  simp only [Bool.false_eq_true, if_false, List.head?_cons]
  have hm : (some c == some '-') = false := by
    simp [digit_ne_minus hc]
  have hp : (some c == some '+') = false := by
    simp [digit_ne_plus hc]
  rw [hm, hp]
  simp only [Bool.or_self, Bool.false_eq_true, if_false]
  rw [takeWhile_of_all (c :: t) hdig]
  simp [hne, hval]

/-- C10: the front-end parser accepts, besides the letter-number notation,
a comma-separated pair of 0-based decimal numerals "x,y", returning the
move (x, y) when the coordinates are in bounds; and every input whose
coordinates are out of bounds or unparsable yields the invalid
sentinel (equivalently, any valid result has in-bounds coordinates). -/
theorem parse_move_comma_numerals :
    (∀ (ds es : List Char) (x y : Nat), NatNumeral ds x → NatNumeral es y →
       UCIEngine.parse_move (ds ++ ',' :: es) =
         (if in_bounds (x : Int) (y : Int) then ({ x := (x : Int), y := (y : Int) } : Move)
          else Move.invalid)) ∧
    (∀ s : List Char, (UCIEngine.parse_move s).is_valid = true →
       in_bounds (UCIEngine.parse_move s).x (UCIEngine.parse_move s).y = true) := by
  constructor
  · intro ds es x y hx hy
    obtain ⟨hne, hdig, hvx⟩ := hx
    obtain ⟨c, t, rfl⟩ := List.exists_cons_of_ne_nil hne
    have hc : isdigitChar c = true := hdig c (by simp)
    unfold UCIEngine.parse_move
    have hlen : ¬ ((c :: t ++ ',' :: es).length < 2) := by
      simp [List.length_append]
      omega
    rw [if_neg hlen]
    have hhead : (c :: t ++ ',' :: es).headI = c := rfl
    rw [hhead, digit_not_alpha hc]
    simp only [Bool.false_eq_true, if_false]
    have hmem : (c :: t ++ ',' :: es).contains ',' = true := by
      simp [List.contains, List.elem_eq_mem]
    rw [hmem]
    simp only [if_true]
    have hidx : (c :: t ++ ',' :: es).findIdx (fun a => a == ',') = (c :: t).length := by
      refine findIdx_append_of_first es (by simp) (c :: t) ?_
      intro a ha
      simp [digit_ne_comma (hdig a ha)]
    rw [hidx]
    have htake : (c :: t ++ ',' :: es).take (c :: t).length = c :: t :=
      List.take_left (c :: t) (',' :: es)
    have hdrop : (c :: t ++ ',' :: es).drop ((c :: t).length + 1) = es := by
      have h2 : c :: t ++ ',' :: es = (c :: t ++ [',']) ++ es := by simp
      have h3 : (c :: t ++ [',']).length = (c :: t).length + 1 := by
        simp
      rw [h2, ← h3, List.drop_left]
    rw [htake, hdrop, stoi_of_numeral ⟨hne, hdig, hvx⟩, stoi_of_numeral hy]
    rfl
  · intro s h
    unfold UCIEngine.parse_move at h ⊢
    by_cases hlen : s.length < 2
    · rw [if_pos hlen] at h
      exact absurd h (by decide)
    · rw [if_neg hlen] at h ⊢
      generalize (if isalphaChar s.headI = true then _ else _ : Option (Int × Int)) = xy at h ⊢
      rcases xy with _ | ⟨x, y⟩
      · exact absurd h (by decide)
      · have hf : finishParse (some (x, y)) =
            (if in_bounds x y = true then ({ x := x, y := y } : Move)
             else Move.invalid) := rfl
        rw [hf] at h ⊢
        by_cases hb : in_bounds x y = true
        · rw [if_pos hb]
          exact hb
        · rw [if_neg hb] at h
          exact absurd h (by decide)

theorem parse_move_comma_numerals_witness :
    NatNumeral ['7'] 7 ∧ NatNumeral ['2', '0'] 20 ∧
    UCIEngine.parse_move (['7'] ++ ',' :: ['7']) =
      (if in_bounds ((7 : Nat) : Int) ((7 : Nat) : Int)
       then ({ x := ((7 : Nat) : Int), y := ((7 : Nat) : Int) } : Move)
       else Move.invalid) ∧
    UCIEngine.parse_move (['7'] ++ ',' :: ['2', '0']) =
      (if in_bounds ((7 : Nat) : Int) ((20 : Nat) : Int)
       then ({ x := ((7 : Nat) : Int), y := ((20 : Nat) : Int) } : Move)
       else Move.invalid) ∧
    (UCIEngine.parse_move ['h', '8']).is_valid = true ∧
    in_bounds (UCIEngine.parse_move ['h', '8']).x
      (UCIEngine.parse_move ['h', '8']).y = true :=
  ⟨by decide, by decide,
    parse_move_comma_numerals.1 ['7'] ['7'] 7 7 (by decide) (by decide),
    parse_move_comma_numerals.1 ['7'] ['2', '0'] 7 20 (by decide) (by decide),
    by decide,
    parse_move_comma_numerals.2 ['h', '8'] (by decide)⟩

/-! C7 — search with a zero time budget. -/

theorem search_loop_zero_budget (body : Nat → MCTSNode → MCTSNode)
    (elapsed : Nat → Nat) (fuel : Nat) (root : MCTSNode) :
    MCTS.search_loop body elapsed 0 fuel 0 root = (root, 0) := by
  cases fuel with
  | zero => rfl
  | succ n =>
    unfold MCTS.search_loop
    rw [if_pos (Int.natCast_nonneg (elapsed 0))]

/-- C7: when neither forced-move query fires and the root has more than one
untried move, a search with a zero-millisecond time limit performs no
iterations and returns the first untried root move (the fallback of
select_best_move on a childless root; its other fallback, the invalid
sentinel, needs an empty untried list, which cannot arise here). -/
theorem search_zero_budget (cfg : MCTSConfig) (b : Board) (elapsed : Nat → Nat)
    (body : Nat → MCTSNode → MCTSNode) (it0 : Nat)
    (hw : (Heuristic.find_winning_move b).is_valid = false)
    (hb : (Heuristic.find_blocking_move b).is_valid = false)
    (hn : 1 < b.get_legal_moves.length) :
    MCTS.search cfg b 0 elapsed body it0 = (b.get_legal_moves.headI, 0) := by
  have hne1 : ¬ ((MCTSNode.mk Move.invalid [] b.get_legal_moves 0 0
      b.current_player).untried_moves.length = 1) := by
    simp only [MCTSNode.untried_moves]
    omega
  unfold MCTS.search
  simp only [hw, Bool.false_eq_true, if_false, hb]
  rw [if_neg hne1, search_loop_zero_budget]
  unfold MCTS.select_best_move
  cases hgl : b.get_legal_moves with
  | nil =>
    rw [hgl] at hn
    simp at hn
  | cons m t =>
    simp [MCTSNode.children, MCTSNode.untried_moves, hgl]

theorem search_zero_budget_witness :
    (Heuristic.find_winning_move oneMoveBoard).is_valid = false ∧
    (Heuristic.find_blocking_move oneMoveBoard).is_valid = false ∧
    1 < oneMoveBoard.get_legal_moves.length ∧
    MCTS.search ⟨10000, 1000⟩ oneMoveBoard 0 (fun _ => 0) (fun _ n => n) 0 =
      (oneMoveBoard.get_legal_moves.headI, 0) :=
  ⟨by decide, by decide, by decide,
    search_zero_budget ⟨10000, 1000⟩ oneMoveBoard (fun _ => 0) (fun _ n => n) 0
      (by decide) (by decide) (by decide)⟩

theorem rollout_terminal_value_witness :
    termDemoBoard.is_terminal = true ∧ termDemoBoard.get_winner = BLACK ∧
    termDemoBoard.current_player = WHITE ∧
    MCTS.rollout termDemoBoard 0 =
      (if termDemoBoard.get_winner = EMPTY then 0
       else if termDemoBoard.get_winner = termDemoBoard.current_player then -1
       else 1) :=
  ⟨by decide, by decide, by decide, rollout_terminal_value termDemoBoard 0 (by decide)⟩

/-! C4 — the make/unmake round trip. -/

theorem rewound_cells (ms : List Move) :
    (Board.rewound ms).cells = (Board.applyAll Board.reset ms).cells := rfl

theorem rewound_occ (ms : List Move) :
    (Board.rewound ms).occupied_mask
      = (Board.applyAll Board.reset ms).occupied_mask := rfl

theorem rewound_black (ms : List Move) :
    (Board.rewound ms).black_mask
      = (Board.applyAll Board.reset ms).black_mask := rfl

theorem rewound_white (ms : List Move) :
    (Board.rewound ms).white_mask
      = (Board.applyAll Board.reset ms).white_mask := rfl

theorem rewound_player (ms : List Move) :
    (Board.rewound ms).current_player
      = (Board.applyAll Board.reset ms).current_player := rfl

theorem rewound_history (ms : List Move) :
    (Board.rewound ms).history = ms := rfl

theorem applyAll_append (b : Board) (ms : List Move) (m : Move) :
    Board.applyAll b (ms ++ [m]) = (Board.applyAll b ms).make_move m := by
  unfold Board.applyAll
  rw [List.foldl_append]
  rfl

theorem unmakeAll_cons (b : Board) (m : Move) (l : List Move) :
    Board.unmakeAll b (m :: l) = Board.unmakeAll (b.unmake_move m) l := rfl

theorem legal_seq_append (ms : List Move) (m : Move) :
    ∀ b : Board, Board.legal_seq b (ms ++ [m])
      = (Board.legal_seq b ms && (Board.applyAll b ms).is_legal m.x m.y) := by
  induction ms with
  | nil =>
    intro b
    simp [Board.legal_seq, Board.applyAll]
  | cons m0 t ih =>
    intro b
    rw [List.cons_append]
    show (b.is_legal m0.x m0.y && Board.legal_seq (b.make_move m0) (t ++ [m]))
      = _
    rw [ih (b.make_move m0), ← Bool.and_assoc]
    rfl

/-- Undoing the last applied move of a legal sequence lands exactly on the
rewound state of the prefix: stones, masks, player and history of the
prefix, terminal state cleared, legal mask rebuilt from the prefix. -/
theorem unmake_applyAll (ms : List Move) (m : Move) (B : Board)
    (hb : in_bounds m.x m.y = true)
    (he : (Board.applyAll Board.reset ms).cells m.to_index = 0)
    (hocc : (Board.applyAll Board.reset ms).occupied_mask m.to_index = false)
    (hblack : (Board.applyAll Board.reset ms).black_mask m.to_index = false)
    (hwhite : (Board.applyAll Board.reset ms).white_mask m.to_index = false)
    (hc : B.cells = (Board.applyAll Board.reset (ms ++ [m])).cells)
    (ho : B.occupied_mask
      = (Board.applyAll Board.reset (ms ++ [m])).occupied_mask)
    (hbm : B.black_mask = (Board.applyAll Board.reset (ms ++ [m])).black_mask)
    (hwm : B.white_mask = (Board.applyAll Board.reset (ms ++ [m])).white_mask)
    (hp : B.current_player
      = (Board.applyAll Board.reset (ms ++ [m])).current_player)
    (hh : B.history = ms ++ [m]) :
    B.unmake_move m = Board.rewound ms := by
  have hne : B.history ≠ [] := by
    rw [hh]
    simp
  rw [unmake_eq_core m hne]
  rw [applyAll_append] at hc ho hbm hwm hp
  have hoccB : ∀ j : Int, B.occupied_mask j
      = (if j = m.to_index then true
         else (Board.applyAll Board.reset ms).occupied_mask j) := by
    intro j
    rw [ho, make_move_occ, make_pre_occ, BitBoard.set_apply]
  have hoccEq : BitBoard.reset B.occupied_mask m.to_index
      = (Board.applyAll Board.reset ms).occupied_mask := by
    funext j
    rw [BitBoard.reset_apply, hoccB]
    by_cases hj : j = m.to_index
    · rw [if_pos hj, hj, hocc]
    · rw [if_neg hj, if_neg hj]
  apply Board.ext
  · -- cells
    rw [unmake_core_cells, rewound_cells]
    funext j
    rw [hc, make_move_cells, make_pre_cells]
    simp only []
    by_cases hj : j = m.to_index
    · rw [if_pos hj, hj, he]
      rfl
    · rw [if_neg hj, if_neg hj]
  · -- occupied mask
    rw [unmake_core_occ, rewound_occ]
    exact hoccEq
  · -- black mask
    rw [unmake_core_black, rewound_black]
    funext j
    rw [BitBoard.reset_apply, hbm, make_move_black, make_pre_black]
    by_cases hpb : (Board.applyAll Board.reset ms).current_player = BLACK
    · rw [if_pos hpb, BitBoard.set_apply]
      by_cases hj : j = m.to_index
      · rw [if_pos hj, hj, hblack]
      · rw [if_neg hj, if_neg hj]
    · rw [if_neg hpb]
      by_cases hj : j = m.to_index
      · rw [if_pos hj, hj, hblack]
      · rw [if_neg hj]
  · -- white mask
    rw [unmake_core_white, rewound_white]
    funext j
    rw [BitBoard.reset_apply, hwm, make_move_white, make_pre_white]
    by_cases hpb : (Board.applyAll Board.reset ms).current_player = BLACK
    · rw [if_pos hpb]
      by_cases hj : j = m.to_index
      · rw [if_pos hj, hj, hwhite]
      · rw [if_neg hj]
    · rw [if_neg hpb, BitBoard.set_apply]
      by_cases hj : j = m.to_index
      · rw [if_pos hj, hj, hwhite]
      · rw [if_neg hj, if_neg hj]
  · -- legal mask
    rw [unmake_core_legal]
    show rebuildLegal B.history.dropLast (BitBoard.reset B.occupied_mask m.to_index)
      = (Board.rewound ms).legal_mask
    rw [hh, List.dropLast_concat, hoccEq]
    rfl
  · -- player
    rw [unmake_core_player, rewound_player, hp, make_move_player, neg_neg]
  · -- terminal flag
    rfl
  · -- result
    rfl
  · -- history
    rw [unmake_core_history, rewound_history, hh, List.dropLast_concat]

theorem unwindAll (ms : List Move) :
    Board.legal_seq Board.reset ms = true →
    ∀ B : Board,
      B.cells = (Board.applyAll Board.reset ms).cells →
      B.occupied_mask = (Board.applyAll Board.reset ms).occupied_mask →
      B.black_mask = (Board.applyAll Board.reset ms).black_mask →
      B.white_mask = (Board.applyAll Board.reset ms).white_mask →
      B.current_player = (Board.applyAll Board.reset ms).current_player →
      B.history = ms →
      Board.unmakeAll B ms.reverse
        = (if ms.isEmpty then B else Board.rewound []) := by
  induction ms using List.reverseRecOn with
  | nil =>
    intro _ B _ _ _ _ _ _
    simp [Board.unmakeAll]
  | append_singleton ms m ih =>
    intro hseq B hc ho hbm hwm hp hh
    rw [legal_seq_append ms m Board.reset, Bool.and_eq_true] at hseq
    obtain ⟨hpre, hlegm⟩ := hseq
    have hInv : (Board.applyAll Board.reset ms).Inv :=
      reachable_inv
        (reachable_applyAll ms Board.reset Board.Reachable.base hpre)
    have hec := is_legal_empty_cell hInv hlegm
    have hidx := to_index_range hec.1
    have hm := maskInv_at hInv.1 hidx.1 hidx.2
    have hocc : (Board.applyAll Board.reset ms).occupied_mask m.to_index
        = false := by
      cases hval : (Board.applyAll Board.reset ms).occupied_mask m.to_index
      · rfl
      · exact absurd (hm.2.1.mp hval) (by simp [hec.2])
    have hblack : (Board.applyAll Board.reset ms).black_mask m.to_index
        = false := by
      cases hval : (Board.applyAll Board.reset ms).black_mask m.to_index
      · rfl
      · have h1 := hm.2.2.1.mp hval
        rw [hec.2] at h1
        exact absurd h1 (by decide)
    have hwhite : (Board.applyAll Board.reset ms).white_mask m.to_index
        = false := by
      cases hval : (Board.applyAll Board.reset ms).white_mask m.to_index
      · rfl
      · have h1 := hm.2.2.2.mp hval
        rw [hec.2] at h1
        exact absurd h1 (by decide)
    have hstep := unmake_applyAll ms m B hec.1 hec.2 hocc hblack hwhite
      hc ho hbm hwm hp hh
    rw [List.reverse_append, List.reverse_singleton, List.singleton_append,
        unmakeAll_cons, hstep]
    have hrec := ih hpre (Board.rewound ms) (rewound_cells ms)
      (rewound_occ ms) (rewound_black ms) (rewound_white ms)
      (rewound_player ms) (rewound_history ms)
    rw [hrec]
    by_cases hms : ms.isEmpty = true
    · rw [if_pos hms,
          if_neg (by simp),
          show ms = [] from List.isEmpty_iff.mp hms]
    · rw [if_neg hms, if_neg (by simp)]

/-- C4 counterexample: applying the single legal move (7, 7) to a fresh
board and undoing it does not restore the fresh-board state: the legal
mask of the round-tripped board holds the center bit, while reset
leaves the legal mask empty. -/
theorem roundtrip_claim_false :
    Board.legal_seq Board.reset [(⟨7, 7⟩ : Move)] = true ∧
    Board.unmakeAll (Board.applyAll Board.reset [(⟨7, 7⟩ : Move)])
      [(⟨7, 7⟩ : Move)].reverse ≠ Board.reset := by
  refine ⟨by decide, ?_⟩
  intro hEq
  exact absurd (congrArg (fun B => B.legal_mask (to_index 7 7)) hEq)
    (by decide)

/-- C4 amended: for every non-empty sequence of moves each legal when
applied in order to a fresh board, applying them all and undoing them
in reverse order restores every field of the fresh board — cells,
occupied/black/white masks, history, side to move, terminal flag and
result — except the legal mask, which afterwards holds exactly the
center cell (7, 7) instead of being empty. -/
theorem make_unmake_roundtrip (ms : List Move)
    (hs : Board.legal_seq Board.reset ms = true) (hne : ms ≠ []) :
    Board.unmakeAll (Board.applyAll Board.reset ms) ms.reverse
      = Board.fresh_center_legal := by
  have h := unwindAll ms hs (Board.applyAll Board.reset ms)
    rfl rfl rfl rfl rfl ?_
  · rw [h, if_neg (by simp [hne])]
    rfl
  · -- history of applyAll from reset is the applied sequence
    show (Board.applyAll Board.reset ms).history = ms
    have hgen : ∀ (l : List Move) (b : Board),
        (Board.applyAll b l).history = b.history ++ l := by
      intro l
      induction l with
      | nil =>
        intro b
        simp [Board.applyAll]
      | cons m0 t ih =>
        intro b
        show (Board.applyAll (b.make_move m0) t).history = _
        rw [ih (b.make_move m0), make_move_history]
        simp
    rw [hgen ms Board.reset]
    rfl

theorem make_unmake_roundtrip_witness :
    Board.legal_seq Board.reset [(⟨7, 7⟩ : Move)] = true ∧
    ([(⟨7, 7⟩ : Move)] ≠ []) ∧
    Board.unmakeAll (Board.applyAll Board.reset [(⟨7, 7⟩ : Move)])
      [(⟨7, 7⟩ : Move)].reverse = Board.fresh_center_legal :=
  ⟨by decide, by decide,
    make_unmake_roundtrip [⟨7, 7⟩] (by decide) (by decide)⟩

end Gomoku
